import Mathlib

/-!
Verification of rl-lib: extremum utilities, sampling primitives and policies.

A shallow embedding of `src/rlAlgo.hpp` and `src/rlPolicy.hpp`.

* A cursor pair `[begin,end)` is the list of the elements it ranges over.
  Every scan of the library dereferences `begin` before it compares it with
  `end`, so on the empty range the behaviour is undefined; the embedding
  returns `none` there.
* The evaluator's result type `V` is any type with a decidable `<` (the scans
  use the operators `<` and `>` only, `v > m` being `m < v`); the claims on
  totally ordered types are stated for a linear order. The weights of
  `density` live in a linearly ordered field `K`, the exact-arithmetic reading
  of `double`.
* The process-wide generator is made explicit: a function that draws takes
  the value returned by its call of `uniform()` as an argument.
* The counter of `enumerator` is an `int`: its arithmetic is exact inside
  `[INT_MIN, INT_MAX]` and undefined (`none`) outside.
* A cursor type yields either a value or a reference when it is dereferenced
  (`Deref`). `argmax` and `argmin` return a pair whose first member has the
  type `decltype(*begin)`: for a reference-yielding cursor that member refers
  to a local of the function, and reading it after the return is undefined
  (`none`).
* The function `exp` of `<cmath>` is a parameter of `softmax`: the computed
  weights are whatever that function returns, also `0` on underflow; they are
  finite, an overflow to `+inf` being outside the embedding.
-/

set_option autoImplicit false

namespace rl

variable {E : Type} {V : Type} [LT V] [DecidableRel (fun a b : V => a < b)]

/-- Loop of `rl::min` (rlAlgo.hpp 49-53): `m` is the running minimum, the list
is what is left of `[iter,end)`. -/
def minLoop (f : E → V) : V → List E → V
  | m, [] => m
  | m, a :: rest =>
    let v := f a
    if v < m then minLoop f v rest else minLoop f m rest

/-- The function `rl::min` (rlAlgo.hpp 40-55). -/
def min (f : E → V) : List E → Option V
  | [] => none
  | a :: rest => some (minLoop f (f a) rest)

/-- Loop of `rl::max` (rlAlgo.hpp 66-70). -/
def maxLoop (f : E → V) : V → List E → V
  | m, [] => m
  | m, a :: rest =>
    let v := f a
    if v > m then maxLoop f v rest else maxLoop f m rest

/-- The function `rl::max` (rlAlgo.hpp 57-72). -/
def max (f : E → V) : List E → Option V
  | [] => none
  | a :: rest => some (maxLoop f (f a) rest)

/-- Loop of `rl::range` (rlAlgo.hpp 85-91); the state is the pair
`(min,max)`. The test `v < min` is made only when `v > max` fails. -/
def rangeLoop (f : E → V) : V × V → List E → V × V
  | acc, [] => acc
  | (mn, mx), a :: rest =>
    let v := f a
    if v > mx then rangeLoop f (mn, v) rest
    else if v < mn then rangeLoop f (v, mx) rest
    else rangeLoop f (mn, mx) rest

/-- The function `rl::range` (rlAlgo.hpp 74-93): the first element seeds both
bounds. -/
def range (f : E → V) : List E → Option (V × V)
  | [] => none
  | a :: rest => some (rangeLoop f (f a, f a) rest)

/-- What the operator `*` of a cursor type yields, that is what the type
`decltype(*begin)` is: a value `T`, as for `rl::enumerator`
(rlAlgo.hpp 158, `T operator*() const`), or a reference `T&` to the element, as
for the iterators of the standard containers. -/
inductive Deref where
  /-- The type `decltype(*begin)` is `T`. -/
  | value : Deref
  /-- The type `decltype(*begin)` is `T&`. -/
  | reference : Deref

/-- The member `first` of the pair that `argmax` and `argmin` return
(rlAlgo.hpp 100-101 and 114, 122-123 and 136), as its caller reads it. Its type
is `decltype(*begin)` and it is initialised from the local `arg_max`
(`auto arg_max = *iter`, a copy). For a value type it is a copy of the local;
for a reference type it refers to the local, whose lifetime has ended when the
function has returned, and reading it is undefined: `none`. -/
def first_of_local (d : Deref) (arg : E) : Option E :=
  match d with
  | Deref.value => some arg
  | Deref.reference => none

/-- Loop of `rl::argmax` (rlAlgo.hpp 106-113); the state is
`(arg_max,max)`. -/
def argmaxLoop (f : E → V) : E × V → List E → E × V
  | acc, [] => acc
  | (arg_max, mx), a :: rest =>
    let v := f a
    if v > mx then argmaxLoop f (a, v) rest else argmaxLoop f (arg_max, mx) rest

/-- The function `rl::argmax` (rlAlgo.hpp 95-115), as its caller sees the pair
`{arg_max,max}` of type `std::pair<decltype(*begin), decltype(f(*begin))>`; `d`
tells what the cursor type yields. -/
def argmax (d : Deref) (f : E → V) : List E → Option (Option E × V)
  | [] => none
  | a :: rest =>
    let r := argmaxLoop f (a, f a) rest
    some (first_of_local d r.1, r.2)

/-- Loop of `rl::argmin` (rlAlgo.hpp 128-135); the state is
`(arg_min,min)`. -/
def argminLoop (f : E → V) : E × V → List E → E × V
  | acc, [] => acc
  | (arg_min, mn), a :: rest =>
    let v := f a
    if v < mn then argminLoop f (a, v) rest else argminLoop f (arg_min, mn) rest

/-- The function `rl::argmin` (rlAlgo.hpp 117-137), as its caller sees the pair
`{arg_min,min}` of type `std::pair<decltype(*begin), decltype(f(*begin))>`; `d`
tells what the cursor type yields. -/
def argmin (d : Deref) (f : E → V) : List E → Option (Option E × V)
  | [] => none
  | a :: rest =>
    let r := argminLoop f (a, f a) rest
    some (first_of_local d r.1, r.2)

/-- Result of an arithmetic operation of the C++ type `int`
(rlAlgo.hpp 142, `int j`): the mathematical result `x` when it lies in
`[INT_MIN, INT_MAX]`; outside, the operation is a signed overflow, which is
undefined, and the embedding returns `none`. The two bounds are the constants
of `<climits>`, taken as parameters. -/
def int_result (INT_MIN INT_MAX x : Int) : Option Int :=
  if INT_MIN ≤ x ∧ x ≤ INT_MAX then some x else none

/-- The class `rl::enumerator<T>` (rlAlgo.hpp 139-161): one counter `j` of
type `int`; `enumerator.mk i` is the constructor `enumerator(int i)`. -/
structure enumerator (T : Type) where
  /-- The member `int j`. -/
  j : Int

namespace enumerator

variable {T : Type}

/-- The operator `*` of `enumerator` (rlAlgo.hpp 158): `(T)j`; `cast` is the
conversion from `int` to `T`. -/
def deref (cast : Int → T) (e : enumerator T) : T := cast e.j

/-- The operator `++` of `enumerator` (rlAlgo.hpp 149): `++j`. -/
def incr (INT_MIN INT_MAX : Int) (e : enumerator T) : Option (enumerator T) :=
  (int_result INT_MIN INT_MAX (e.j + 1)).map enumerator.mk

/-- The operator `--` of `enumerator` (rlAlgo.hpp 150): `--j`. -/
def decr (INT_MIN INT_MAX : Int) (e : enumerator T) : Option (enumerator T) :=
  (int_result INT_MIN INT_MAX (e.j - 1)).map enumerator.mk

/-- The operator `+(int)` of `enumerator` (rlAlgo.hpp 156):
`enumerator<T>(j+i)`. -/
def add (INT_MIN INT_MAX : Int) (e : enumerator T) (i : Int) : Option (enumerator T) :=
  (int_result INT_MIN INT_MAX (e.j + i)).map enumerator.mk

/-- The operator `-(int)` of `enumerator` (rlAlgo.hpp 157):
`enumerator<T>(j-i)`. -/
def sub (INT_MIN INT_MAX : Int) (e : enumerator T) (i : Int) : Option (enumerator T) :=
  (int_result INT_MIN INT_MAX (e.j - i)).map enumerator.mk

/-- The operator `-(const enumerator&)` of `enumerator` (rlAlgo.hpp 155), the
distance `e - i`: `j - i.j`. -/
def distance (INT_MIN INT_MAX : Int) (e i : enumerator T) : Option Int :=
  int_result INT_MIN INT_MAX (e.j - i.j)

/-- The operator `==` of `enumerator` (rlAlgo.hpp 159): `j == i.j`. -/
def eq (e i : enumerator T) : Bool := decide (e.j = i.j)

/-- The operator `!=` of `enumerator` (rlAlgo.hpp 160): `j != i.j`. -/
def ne (e i : enumerator T) : Bool := decide (e.j ≠ i.j)

/-- The traversal `for(iter = begin; iter != end; ++iter)` that every scan
of rlAlgo.hpp makes over a cursor pair, here over two enumerators: the list of
the values `*iter` visited. `fuel` bounds the number of increments; `none` is a
traversal that needs more, or one whose `++` overflows. -/
def enumerate (INT_MIN INT_MAX : Int) (cast : Int → T) :
    Nat → enumerator T → enumerator T → Option (List T)
  | 0, iter, last => if ne iter last then none else some []
  | fuel + 1, iter, last =>
    if ne iter last then
      match incr INT_MIN INT_MAX iter with
      | none => none
      | some next =>
        match enumerate INT_MIN INT_MAX cast fuel next last with
        | none => none
        | some visited => some (deref cast iter :: visited)
    else some []

end enumerator

namespace random

variable {K : Type} [LinearOrderedField K]

/-- The function `rl::random::uniform(double,double)` (rlAlgo.hpp 179);
`u0` is the value its call of `uniform()` returned. -/
def uniform_min_max (min max u0 : K) : K := min + (max - min) * u0

/-- First loop of `density` (rlAlgo.hpp 196-199): the entries of `cum` after
the first one; `prev` is the entry written last. -/
def cumLoop (f : E → K) : K → List E → List K
  | _, [] => []
  | prev, a :: rest =>
    let c := prev + f a
    c :: cumLoop f c rest

/-- The vector `cum` of `density` once it is filled (rlAlgo.hpp 190-199). On
the empty range the write `*citer = f(*iter)` is undefined. -/
def cum (f : E → K) : List E → Option (List K)
  | [] => none
  | a :: rest => some (f a :: cumLoop f (f a) rest)

/-- Second loop of `density` (rlAlgo.hpp 202-204): `i` is `citer - cum.begin()`
and the list is what is left of `cum` from `citer` on. The loop has no test
against `cum.end()`: when the entries run out it reads past the vector, which
is undefined, and the embedding returns `none`. -/
def scan (val : K) : List K → Nat → Option Nat
  | [], _ => none
  | c :: cs, i => if val ≥ c then scan val cs (i + 1) else some i

/-- What `density` does once `val` is drawn (rlAlgo.hpp 202-205): the index
`citer - cum.begin()` at which the scan stops. -/
def densityIndex (f : E → K) (S : List E) (val : K) : Option Nat :=
  match cum f S with
  | none => none
  | some cv => scan val cv 0

/-- What `density` returns once `val` is drawn (rlAlgo.hpp 205):
`*(begin + (citer - cum.begin()))`. -/
def densityAt (f : E → K) (S : List E) (val : K) : Option E :=
  match densityIndex f S val with
  | none => none
  | some i => S[i]?

/-- The function `rl::random::density` (rlAlgo.hpp 185-206); `u0` is the value
returned by the call of `uniform()` inside `uniform(0,cum[size-1])`. -/
def density (f : E → K) (S : List E) (u0 : K) : Option E :=
  match cum f S with
  | none => none
  | some cv =>
    match cv[S.length - 1]? with
    | none => none
    | some total => densityAt f S (uniform_min_max 0 total u0)

/-- The running sum `C_i = f(e_0) + ... + f(e_i)` of the weights, as the
specification defines it. -/
def C (f : E → K) (S : List E) (i : Nat) : K := ((S.take (i + 1)).map f).sum

/-- The running sum before position `i`: `C_{i-1}`, with `C_{-1} = 0`. -/
def Cprev (f : E → K) (S : List E) : Nat → K
  | 0 => 0
  | i + 1 => C f S i

/-- The function `rl::random::uniform(void)` (rlAlgo.hpp 174):
`rand()/(1.0+RAND_MAX)`; `r` is the value returned by `rand()` and `RAND_MAX`
the constant of `<cstdlib>`, taken as a parameter. The sum `1.0+RAND_MAX` is
made in `double`. -/
def uniform (RAND_MAX r : Nat) : K := (r : K) / (1 + (RAND_MAX : K))

/-- The function `rl::random::toss` (rlAlgo.hpp 211-213); `u0` is the value
returned by its call of `uniform()`. -/
def toss (proba u0 : K) : Bool := decide (u0 < proba)

/-- Conversion of a `double` to an integer type, as the cast
`(decltype(end-begin))(...)` of `select` makes it (rlAlgo.hpp 217): the
fractional part is discarded, the value is truncated toward zero. -/
def trunc [FloorRing K] (x : K) : Int := if 0 ≤ x then Int.floor x else Int.ceil x

/-- The offset that `select` adds to `begin` (rlAlgo.hpp 217):
`(decltype(end-begin))(uniform()*(end-begin))`. -/
def selectIndex [FloorRing K] (S : List E) (u0 : K) : Int := trunc (u0 * (S.length : K))

/-- The function `rl::random::select` (rlAlgo.hpp 215-218); `u0` is the value
returned by its call of `uniform()`. An offset outside `[0, end-begin)` is a
dereference outside the range, which is undefined. -/
def select [FloorRing K] (S : List E) (u0 : K) : Option E :=
  if 0 ≤ selectIndex S u0 then S[(selectIndex S u0).toNat]? else none

/-- The function `rl::random::softmax` (rlAlgo.hpp 220-228): `density` with the
weight `exp(f(a)/temperature)`; `u0` is the value returned by the call of
`uniform()`. The function `exp` of `<cmath>` is taken as a parameter: the
weights are what it returns, `0` included where it underflows. Its results are
numbers of `K`: a result beyond the largest `double`, which `exp` returns as
`+inf`, has no counterpart, so a call on which `exp` overflows is outside the
embedding. -/
def softmax (exp : K → K) (f : E → K) (temperature : K) (S : List E) (u0 : K) : Option E :=
  density (fun a => exp (f a / temperature)) S u0

/-- The share of the `uniform()` values for which `density` with the weight
function `w` stops at a position holding `e`: the weight of `e` over the total
weight `C_{n-1}`. -/
def share (w : E → K) (S : List E) (e : E) : K := w e / C w S (S.length - 1)

end random

namespace policy

variable {STATE : Type}

/-- The call operator of `rl::policy::Greedy` (rlPolicy.hpp 69-72); `q` and
the list are the members `q` and `[begin,end)`, `d` tells what the action
cursor yields. The result is a copy of the member `first` of the pair of
`argmax`. -/
def Greedy (d : Deref) (q : STATE → E → V) (S : List E) (s : STATE) : Option E :=
  match argmax d (fun a => q s a) S with
  | none => none
  | some p => p.1

/-- The call operator of `rl::policy::EpsilonGreedy` (rlPolicy.hpp 121-126);
`u1` is the value of `uniform()` drawn by `toss` and `u2` the one drawn by
`select`, which is drawn only when the toss is true; `d` tells what the action
cursor yields. -/
def EpsilonGreedy {K : Type} [LinearOrderedField K] [FloorRing K]
    (d : Deref) (q : STATE → E → V) (epsilon : K) (S : List E) (s : STATE) (u1 u2 : K) :
    Option E :=
  if random.toss epsilon u1 then random.select S u2
  else
    match argmax d (fun a => q s a) S with
    | none => none
    | some p => p.1

/-- The call operator of `rl::policy::Random` (rlPolicy.hpp 164-167); the state
is not used. -/
def Random {K : Type} [LinearOrderedField K] [FloorRing K]
    (S : List E) (_s : STATE) (u0 : K) : Option E :=
  random.select S u0

end policy

end rl

namespace rl

section AnyComparison

variable {E : Type} {V : Type} [LT V] [DecidableRel (fun a b : V => a < b)]

/-! ## Extremum utilities: facts that need no property of `<` -/

theorem mem_of_getElem?_eq_some {S : List E} {i : Nat} {e : E} (h : S[i]? = some e) :
    e ∈ S := by
  obtain ⟨hi, he⟩ := List.getElem?_eq_some.1 h
  exact he ▸ List.getElem_mem hi

theorem maxLoop_eq_argmaxLoop (f : E → V) (rest : List E) (b : E) (m : V) :
    maxLoop f m rest = (argmaxLoop f (b, m) rest).2 := by
  induction rest generalizing b m with
  | nil => rfl
  | cons a rest ih =>
    by_cases h : f a > m
    · simp [maxLoop, argmaxLoop, h, ih a (f a)]
    · simp [maxLoop, argmaxLoop, h, ih b m]

theorem minLoop_eq_argminLoop (f : E → V) (rest : List E) (b : E) (m : V) :
    minLoop f m rest = (argminLoop f (b, m) rest).2 := by
  induction rest generalizing b m with
  | nil => rfl
  | cons a rest ih =>
    by_cases h : f a < m
    · simp [minLoop, argminLoop, h, ih a (f a)]
    · simp [minLoop, argminLoop, h, ih b m]

theorem argmaxLoop_mem (f : E → V) (rest : List E) (b : E) :
    ∃ e ∈ b :: rest, argmaxLoop f (b, f b) rest = (e, f e) := by
  induction rest generalizing b with
  | nil => exact ⟨b, by simp, rfl⟩
  | cons a rest ih =>
    by_cases h : f a > f b
    · obtain ⟨e, he, hr⟩ := ih a
      exact ⟨e, List.mem_cons_of_mem b he, by simp [argmaxLoop, h, hr]⟩
    · obtain ⟨e, he, hr⟩ := ih b
      refine ⟨e, ?_, by simp [argmaxLoop, h, hr]⟩
      rcases List.mem_cons.1 he with rfl | he
      · simp
      · simp [he]

/-- What the pair of `argmax` holds, for either kind of cursor and whatever
the comparison `<`: the second member is `max(f,S)` and is the evaluator's value
at an element `e` of the sequence; the first member is that element for a
value-yielding cursor and is undefined for a reference-yielding one. -/
theorem argmax_pair_consistent (d : Deref) (f : E → V) (S : List E) (hS : S ≠ []) :
    ∃ e ∈ S, argmax d f S = some (first_of_local d e, f e) ∧ rl.max f S = some (f e) := by
  cases S with
  | nil => exact absurd rfl hS
  | cons b rest =>
    obtain ⟨e, he, hr⟩ := argmaxLoop_mem f rest b
    refine ⟨e, he, by simp [argmax, hr], ?_⟩
    simp [rl.max, maxLoop_eq_argmaxLoop f rest b (f b), hr]

theorem argmax_pair_consistent_witness :
    ([4, 7, 7, 1] : List Int) ≠ [] ∧
    ∃ e ∈ ([4, 7, 7, 1] : List Int),
      argmax Deref.value (fun a : Int => a) [4, 7, 7, 1] =
        some (first_of_local Deref.value e, e) ∧
      rl.max (fun a : Int => a) [4, 7, 7, 1] = some e :=
  ⟨by decide, argmax_pair_consistent Deref.value (fun a : Int => a) [4, 7, 7, 1] (by decide)⟩

theorem first_of_local_reference (arg : E) :
    first_of_local Deref.reference arg = (none : Option E) := rfl

theorem first_of_local_value (arg : E) : first_of_local Deref.value arg = some arg := rfl

/-- C2, defect of `rl::argmax`: over the elements `4, 7, 7, 1` held in a
container (a reference-yielding cursor) with the evaluator `f(a) = a`, the
second member of the pair is `max(f,S) = 7`, but the first member refers to the
dead local `arg_max`: it is undefined, so it is neither an element of the
sequence nor an argument whose value is the second member. Read through a
value-yielding cursor the same call gives the pair `(7, 7)`. -/
theorem argmax_pair_dangling :
    rl.max (fun a : Int => a) [4, 7, 7, 1] = some 7 ∧
    argmax Deref.reference (fun a : Int => a) [4, 7, 7, 1] = some (none, 7) ∧
    argmax Deref.value (fun a : Int => a) [4, 7, 7, 1] = some (some 7, 7) := by
  decide

end AnyComparison

variable {E : Type} {V : Type} [LinearOrder V]

/-! ## Extremum utilities on a totally ordered type -/

theorem argmaxLoop_spec (f : E → V) (rest : List E) (b : E) :
    ∃ (i : Nat) (e : E), (b :: rest)[i]? = some e ∧
      argmaxLoop f (b, f b) rest = (e, f e) ∧
      (∀ (j : Nat) (x : E), j < i → (b :: rest)[j]? = some x → f x < f e) ∧
      (∀ x ∈ b :: rest, f x ≤ f e) := by
  induction rest generalizing b with
  | nil => exact ⟨0, b, rfl, rfl, by intro j x hj; omega, by simp⟩
  | cons a rest ih =>
    by_cases h : f a > f b
    · obtain ⟨i, e, hi, hr, hlt, hle⟩ := ih a
      have hae : f a ≤ f e := hle a (by simp)
      refine ⟨i + 1, e, by simpa using hi, by simp [argmaxLoop, h, hr], ?_, ?_⟩
      · intro j x hj hx
        cases j with
        | zero =>
          simp at hx
          subst hx
          exact lt_of_lt_of_le h hae
        | succ j => exact hlt j x (by omega) (by simpa using hx)
      · intro x hx
        rcases List.mem_cons.1 hx with rfl | hx
        · exact le_of_lt (lt_of_lt_of_le h hae)
        · exact hle x hx
    · obtain ⟨i, e, hi, hr, hlt, hle⟩ := ih b
      have hab : f a ≤ f b := not_lt.1 h
      have hbe : f b ≤ f e := hle b (by simp)
      cases i with
      | zero =>
        simp at hi
        subst hi
        refine ⟨0, b, rfl, by simp [argmaxLoop, h, hr], by intro j x hj; omega, ?_⟩
        intro x hx
        rcases List.mem_cons.1 hx with rfl | hx
        · exact le_refl _
        · rcases List.mem_cons.1 hx with rfl | hx
          · exact hab
          · exact hle x (by simp [hx])
      | succ i =>
        have hbe2 : f b < f e := hlt 0 b (by omega) (by simp)
        refine ⟨i + 2, e, by simpa using hi, by simp [argmaxLoop, h, hr], ?_, ?_⟩
        · intro j x hj hx
          match j, hj, hx with
          | 0, _, hx =>
            simp at hx
            subst hx
            exact hbe2
          | 1, _, hx =>
            simp at hx
            subst hx
            exact lt_of_le_of_lt hab hbe2
          | j + 2, hj, hx => exact hlt (j + 1) x (by omega) (by simpa using hx)
        · intro x hx
          rcases List.mem_cons.1 hx with rfl | hx
          · exact hbe
          · rcases List.mem_cons.1 hx with rfl | hx
            · exact le_trans hab hbe
            · exact hle x (by simp [hx])

theorem argminLoop_spec (f : E → V) (rest : List E) (b : E) :
    ∃ (i : Nat) (e : E), (b :: rest)[i]? = some e ∧
      argminLoop f (b, f b) rest = (e, f e) ∧
      (∀ (j : Nat) (x : E), j < i → (b :: rest)[j]? = some x → f e < f x) ∧
      (∀ x ∈ b :: rest, f e ≤ f x) := by
  induction rest generalizing b with
  | nil => exact ⟨0, b, rfl, rfl, by intro j x hj; omega, by simp⟩
  | cons a rest ih =>
    by_cases h : f a < f b
    · obtain ⟨i, e, hi, hr, hlt, hle⟩ := ih a
      have hea : f e ≤ f a := hle a (by simp)
      refine ⟨i + 1, e, by simpa using hi, by simp [argminLoop, h, hr], ?_, ?_⟩
      · intro j x hj hx
        cases j with
        | zero =>
          simp at hx
          subst hx
          exact lt_of_le_of_lt hea h
        | succ j => exact hlt j x (by omega) (by simpa using hx)
      · intro x hx
        rcases List.mem_cons.1 hx with rfl | hx
        · exact le_of_lt (lt_of_le_of_lt hea h)
        · exact hle x hx
    · obtain ⟨i, e, hi, hr, hlt, hle⟩ := ih b
      have hba : f b ≤ f a := not_lt.1 h
      have heb : f e ≤ f b := hle b (by simp)
      cases i with
      | zero =>
        simp at hi
        subst hi
        refine ⟨0, b, rfl, by simp [argminLoop, h, hr], by intro j x hj; omega, ?_⟩
        intro x hx
        rcases List.mem_cons.1 hx with rfl | hx
        · exact le_refl _
        · rcases List.mem_cons.1 hx with rfl | hx
          · exact hba
          · exact hle x (by simp [hx])
      | succ i =>
        have heb2 : f e < f b := hlt 0 b (by omega) (by simp)
        refine ⟨i + 2, e, by simpa using hi, by simp [argminLoop, h, hr], ?_, ?_⟩
        · intro j x hj hx
          match j, hj, hx with
          | 0, _, hx =>
            simp at hx
            subst hx
            exact heb2
          | 1, _, hx =>
            simp at hx
            subst hx
            exact lt_of_lt_of_le heb2 hba
          | j + 2, hj, hx => exact hlt (j + 1) x (by omega) (by simpa using hx)
        · intro x hx
          rcases List.mem_cons.1 hx with rfl | hx
          · exact heb
          · rcases List.mem_cons.1 hx with rfl | hx
            · exact le_trans heb hba
            · exact hle x (by simp [hx])

theorem rangeLoop_eq (f : E → V) (rest : List E) (mn mx : V) (h : mn ≤ mx) :
    rangeLoop f (mn, mx) rest = (minLoop f mn rest, maxLoop f mx rest) := by
  induction rest generalizing mn mx with
  | nil => rfl
  | cons a rest ih =>
    by_cases h1 : f a > mx
    · have h2 : ¬ f a < mn := not_lt.2 (le_of_lt (lt_of_le_of_lt h h1))
      simp [rangeLoop, minLoop, maxLoop, h1, h2, ih mn (f a) (le_of_lt (lt_of_le_of_lt h h1))]
    · by_cases h2 : f a < mn
      · simp [rangeLoop, minLoop, maxLoop, h1, h2, ih (f a) mx (le_of_lt (lt_of_lt_of_le h2 h))]
      · simp [rangeLoop, minLoop, maxLoop, h1, h2, ih mn mx h]

/-! ### Claims on the extremum utilities -/

/-- What `argmax` computes on a totally ordered type, for either kind of
cursor: the loop ends on the element `e` at the least position whose value is
`max(f,S)` (every element at an earlier position has a strictly smaller value,
no element at a later position a larger one), the second member of the pair is
that value, and the first member is `e` for a value-yielding cursor and
undefined for a reference-yielding one. -/
theorem argmax_first_occurrence (d : Deref) (f : E → V) (S : List E) (hS : S ≠ []) :
    ∃ (i : Nat) (e : E), S[i]? = some e ∧
      argmax d f S = some (first_of_local d e, f e) ∧
      rl.max f S = some (f e) ∧
      (∀ (j : Nat) (x : E), j < i → S[j]? = some x → f x < f e) ∧
      (∀ (j : Nat) (x : E), i < j → S[j]? = some x → f x ≤ f e) := by
  cases S with
  | nil => exact absurd rfl hS
  | cons b rest =>
    obtain ⟨i, e, hi, hr, hlt, hle⟩ := argmaxLoop_spec f rest b
    refine ⟨i, e, hi, by simp [argmax, hr], ?_, hlt, ?_⟩
    · simp [rl.max, maxLoop_eq_argmaxLoop f rest b (f b), hr]
    · intro j x _ hx
      exact hle x (mem_of_getElem?_eq_some hx)

theorem argmax_first_occurrence_witness :
    ([0, 2, 5, 1] : List Nat) ≠ [] ∧
    ∃ (i : Nat) (e : Nat), [0, 2, 5, 1][i]? = some e ∧
      argmax Deref.value (fun a : Nat => a % 3) [0, 2, 5, 1] =
        some (first_of_local Deref.value e, e % 3) ∧
      rl.max (fun a : Nat => a % 3) [0, 2, 5, 1] = some (e % 3) ∧
      (∀ (j : Nat) (x : Nat), j < i → [0, 2, 5, 1][j]? = some x → x % 3 < e % 3) ∧
      (∀ (j : Nat) (x : Nat), i < j → [0, 2, 5, 1][j]? = some x → x % 3 ≤ e % 3) :=
  ⟨by decide,
    argmax_first_occurrence Deref.value (fun a : Nat => a % 3) [0, 2, 5, 1] (by decide)⟩

/-- C1, defect of `rl::argmax`: over the elements `0, 2, 5, 1` held in a
container (a reference-yielding cursor) with the evaluator `f(a) = a mod 3`,
whose maximum `2` is attained first at position `1` by the element `2` and
again at position `2`, the member `first` of the returned pair refers to the
dead local `arg_max` and is undefined: the first maximiser is not returned.
Read through a value-yielding cursor the same call gives `(2, 2)`. -/
theorem argmax_first_dangling :
    ([0, 2, 5, 1] : List Nat)[1]? = some 2 ∧
    rl.max (fun a : Nat => a % 3) [0, 2, 5, 1] = some 2 ∧
    argmax Deref.reference (fun a : Nat => a % 3) [0, 2, 5, 1] = some (none, 2) ∧
    argmax Deref.value (fun a : Nat => a % 3) [0, 2, 5, 1] = some (some 2, 2) := by
  decide

/-- C4: on a non-empty sequence `min(f,S)` is at most the value of every
element and is the value of at least one element. -/
theorem min_le_and_attained (f : E → V) (S : List E) (hS : S ≠ []) :
    ∃ m : V, rl.min f S = some m ∧ (∀ e ∈ S, m ≤ f e) ∧ ∃ e ∈ S, m = f e := by
  cases S with
  | nil => exact absurd rfl hS
  | cons b rest =>
    obtain ⟨i, e, hi, hr, _, hle⟩ := argminLoop_spec f rest b
    refine ⟨f e, ?_, hle, e, mem_of_getElem?_eq_some hi, rfl⟩
    simp [rl.min, minLoop_eq_argminLoop f rest b (f b), hr]

theorem min_le_and_attained_witness :
    ([3, 1, 5, 1] : List Int) ≠ [] ∧
    ∃ m : Int, rl.min (fun a : Int => a * a) [3, 1, 5, 1] = some m ∧
      (∀ e ∈ ([3, 1, 5, 1] : List Int), m ≤ e * e) ∧
      ∃ e ∈ ([3, 1, 5, 1] : List Int), m = e * e :=
  ⟨by decide, min_le_and_attained (fun a : Int => a * a) [3, 1, 5, 1] (by decide)⟩

/-- C5: on a non-empty sequence `max(f,S)` is at least the value of every
element and is the value of at least one element. -/
theorem max_ge_and_attained (f : E → V) (S : List E) (hS : S ≠ []) :
    ∃ m : V, rl.max f S = some m ∧ (∀ e ∈ S, m ≥ f e) ∧ ∃ e ∈ S, m = f e := by
  cases S with
  | nil => exact absurd rfl hS
  | cons b rest =>
    obtain ⟨i, e, hi, hr, _, hle⟩ := argmaxLoop_spec f rest b
    refine ⟨f e, ?_, hle, e, mem_of_getElem?_eq_some hi, rfl⟩
    simp [rl.max, maxLoop_eq_argmaxLoop f rest b (f b), hr]

theorem max_ge_and_attained_witness :
    ([3, 1, 5, 1] : List Int) ≠ [] ∧
    ∃ m : Int, rl.max (fun a : Int => a * a) [3, 1, 5, 1] = some m ∧
      (∀ e ∈ ([3, 1, 5, 1] : List Int), m ≥ e * e) ∧
      ∃ e ∈ ([3, 1, 5, 1] : List Int), m = e * e :=
  ⟨by decide, max_ge_and_attained (fun a : Int => a * a) [3, 1, 5, 1] (by decide)⟩

/-- C6: on a non-empty sequence the single pass of `range` returns the pair
`(min(f,S), max(f,S))`, although it tests `v < min` only when `v > max`
fails. -/
theorem range_eq_min_max (f : E → V) (S : List E) (hS : S ≠ []) :
    ∃ (mn mx : V), range f S = some (mn, mx) ∧ rl.min f S = some mn ∧
      rl.max f S = some mx := by
  cases S with
  | nil => exact absurd rfl hS
  | cons b rest =>
    exact ⟨minLoop f (f b) rest, maxLoop f (f b) rest,
      by simp [range, rangeLoop_eq f rest (f b) (f b) (le_refl _)], rfl, rfl⟩

theorem range_eq_min_max_witness :
    ([3, 1, 5, 0] : List Int) ≠ [] ∧
    ∃ (mn mx : Int), range (fun a : Int => a) [3, 1, 5, 0] = some (mn, mx) ∧
      rl.min (fun a : Int => a) [3, 1, 5, 0] = some mn ∧
      rl.max (fun a : Int => a) [3, 1, 5, 0] = some mx :=
  ⟨by decide, range_eq_min_max (fun a : Int => a) [3, 1, 5, 0] (by decide)⟩

/-- What `argmin` computes on a totally ordered type, for either kind of
cursor: the loop ends on the element `e` at the least position whose value is
`min(f,S)` (every element at an earlier position has a strictly larger value,
no element at a later position a smaller one), the second member of the pair is
that value, and the first member is `e` for a value-yielding cursor and
undefined for a reference-yielding one. -/
theorem argmin_first_occurrence (d : Deref) (f : E → V) (S : List E) (hS : S ≠ []) :
    ∃ (i : Nat) (e : E), S[i]? = some e ∧
      argmin d f S = some (first_of_local d e, f e) ∧
      rl.min f S = some (f e) ∧
      (∀ (j : Nat) (x : E), j < i → S[j]? = some x → f e < f x) ∧
      (∀ (j : Nat) (x : E), i < j → S[j]? = some x → f e ≤ f x) := by
  cases S with
  | nil => exact absurd rfl hS
  | cons b rest =>
    obtain ⟨i, e, hi, hr, hlt, hle⟩ := argminLoop_spec f rest b
    refine ⟨i, e, hi, by simp [argmin, hr], ?_, hlt, ?_⟩
    · simp [rl.min, minLoop_eq_argminLoop f rest b (f b), hr]
    · intro j x _ hx
      exact hle x (mem_of_getElem?_eq_some hx)

theorem argmin_first_occurrence_witness :
    ([4, 3, 6, 8] : List Nat) ≠ [] ∧
    ∃ (i : Nat) (e : Nat), [4, 3, 6, 8][i]? = some e ∧
      argmin Deref.value (fun a : Nat => a % 3) [4, 3, 6, 8] =
        some (first_of_local Deref.value e, e % 3) ∧
      rl.min (fun a : Nat => a % 3) [4, 3, 6, 8] = some (e % 3) ∧
      (∀ (j : Nat) (x : Nat), j < i → [4, 3, 6, 8][j]? = some x → e % 3 < x % 3) ∧
      (∀ (j : Nat) (x : Nat), i < j → [4, 3, 6, 8][j]? = some x → e % 3 ≤ x % 3) :=
  ⟨by decide,
    argmin_first_occurrence Deref.value (fun a : Nat => a % 3) [4, 3, 6, 8] (by decide)⟩

/-- C7, defect of `rl::argmin`: over the elements `4, 3, 6, 8` held in a
container (a reference-yielding cursor) with the evaluator `f(a) = a mod 3`,
whose minimum `0` is attained first at position `1` by the element `3` and
again at position `2`, the member `first` of the returned pair refers to the
dead local `arg_min` and is undefined: the pair `(e_i, f(e_i))` is not
returned. Read through a value-yielding cursor the same call gives `(3, 0)`. -/
theorem argmin_first_dangling :
    ([4, 3, 6, 8] : List Nat)[1]? = some 3 ∧
    rl.min (fun a : Nat => a % 3) [4, 3, 6, 8] = some 0 ∧
    argmin Deref.reference (fun a : Nat => a % 3) [4, 3, 6, 8] = some (none, 0) ∧
    argmin Deref.value (fun a : Nat => a % 3) [4, 3, 6, 8] = some (some 3, 0) := by
  decide

namespace policy

variable {STATE : Type}

/-- What `Greedy` computes, for either kind of action cursor: `argmax` ends on
the first action `a*` with `Q(s,a*) ≥ Q(s,a)` for every action `a` of the
sequence, every action at an earlier position having a strictly smaller `Q`,
and `Greedy(s)` is `a*` for a value-yielding cursor and undefined for a
reference-yielding one; with `Q(s,a) = -a` over the actions `0,1,2,3` of a
value-yielding cursor it returns `0` for every state. -/
theorem Greedy_first_best (d : Deref) (q : STATE → E → V) (S : List E) (s : STATE)
    (hS : S ≠ []) :
    (∃ (i : Nat) (a : E), S[i]? = some a ∧ Greedy d q S s = first_of_local d a ∧
      (∀ x ∈ S, q s x ≤ q s a) ∧
      (∀ (j : Nat) (x : E), j < i → S[j]? = some x → q s x < q s a)) ∧
    (∀ s0 : STATE,
      Greedy Deref.value (fun (_ : STATE) (a : Int) => -a) [0, 1, 2, 3] s0 = some 0) := by
  refine ⟨?_, fun s0 => rfl⟩
  cases S with
  | nil => exact absurd rfl hS
  | cons b rest =>
    obtain ⟨i, a, hi, hr, hlt, hle⟩ := argmaxLoop_spec (fun a => q s a) rest b
    exact ⟨i, a, hi, by simp [Greedy, argmax, hr], hle, hlt⟩

theorem Greedy_first_best_witness :
    ([2, 0, 1, 3] : List Nat) ≠ [] ∧
    ((∃ (i : Nat) (a : Nat), [2, 0, 1, 3][i]? = some a ∧
      Greedy Deref.value (fun (s : Nat) (a : Nat) => (s + a) % 3) [2, 0, 1, 3] 5 =
        first_of_local Deref.value a ∧
      (∀ x ∈ [2, 0, 1, 3], (5 + x) % 3 ≤ (5 + a) % 3) ∧
      (∀ (j : Nat) (x : Nat), j < i → [2, 0, 1, 3][j]? = some x →
        (5 + x) % 3 < (5 + a) % 3)) ∧
    (∀ s0 : Nat,
      Greedy Deref.value (fun (_ : Nat) (a : Int) => -a) [0, 1, 2, 3] s0 = some 0)) :=
  ⟨by decide,
    Greedy_first_best Deref.value (fun (s : Nat) (a : Nat) => (s + a) % 3) [2, 0, 1, 3] 5
      (by decide)⟩

/-- C3, defect of `rl::argmax` as `Greedy` reads it: with the actions held in a
container (a reference-yielding cursor), `Greedy` copies the member `first` of
the pair of `argmax`, which refers to the dead local `arg_max`, so the action
returned is undefined. This is so for `Q(s,a) = -a` over the actions
`0, 1, 2, 3`, where the first best action is `0`, and for
`Q(s,a) = (s + a) mod 3` over the actions `2, 0, 1, 3` at state `1`, where it
is `1`. Read through a value-yielding cursor the same calls return `0` and
`1`. -/
theorem Greedy_dangling :
    Greedy Deref.reference (fun (_ : Nat) (a : Int) => -a) [0, 1, 2, 3] 7 = none ∧
    Greedy Deref.value (fun (_ : Nat) (a : Int) => -a) [0, 1, 2, 3] 7 = some 0 ∧
    Greedy Deref.reference (fun (s : Nat) (a : Nat) => (s + a) % 3) [2, 0, 1, 3] 1 = none ∧
    Greedy Deref.value (fun (s : Nat) (a : Nat) => (s + a) % 3) [2, 0, 1, 3] 1 = some 1 := by
  decide

end policy

namespace random

variable {K : Type} [LinearOrderedField K]

/-! ## Cumulative-weight sampling -/

theorem cumLoop_eq (f : E → K) (rest : List E) (prev : K) :
    cumLoop f prev rest =
      (List.range rest.length).map (fun i => prev + ((rest.take (i + 1)).map f).sum) := by
  induction rest generalizing prev with
  | nil => rfl
  | cons a rest ih =>
    simp [cumLoop, ih, List.range_succ_eq_map, List.map_map, Function.comp_def, add_assoc]

theorem cum_eq (f : E → K) (S : List E) (hS : S ≠ []) :
    cum f S = some ((List.range S.length).map (C f S)) := by
  cases S with
  | nil => exact absurd rfl hS
  | cons a rest =>
    simp [cum, cumLoop_eq, C, List.range_succ_eq_map, List.map_map, Function.comp_def]

theorem C_zero (f : E → K) (a : E) (rest : List E) : C f (a :: rest) 0 = f a := by
  simp [C]

theorem C_succ (f : E → K) (S : List E) (i : Nat) (e : E) (h : S[i + 1]? = some e) :
    C f S (i + 1) = C f S i + f e := by
  simp [C, @List.take_succ _ S (i + 1), h]

theorem scan_eq_some_iff (val : K) (cs : List K) (k i : Nat) :
    scan val cs k = some i ↔
      ∃ (j : Nat) (c : K), i = k + j ∧ cs[j]? = some c ∧ val < c ∧
        ∀ (j0 : Nat) (c0 : K), j0 < j → cs[j0]? = some c0 → c0 ≤ val := by
  induction cs generalizing k with
  | nil => simp [scan]
  | cons c cs ih =>
    by_cases h : val ≥ c
    · simp only [scan, h, if_true, ih]
      constructor
      · rintro ⟨j, c1, rfl, hj, hlt, hall⟩
        refine ⟨j + 1, c1, by omega, by simpa using hj, hlt, ?_⟩
        intro j0 c0 hj0 hc0
        cases j0 with
        | zero =>
          simp at hc0
          subst hc0
          exact h
        | succ j0 => exact hall j0 c0 (by omega) (by simpa using hc0)
      · rintro ⟨j, c1, rfl, hj, hlt, hall⟩
        cases j with
        | zero =>
          simp at hj
          subst hj
          exact absurd hlt (not_lt.2 h)
        | succ j =>
          refine ⟨j, c1, by omega, by simpa using hj, hlt, ?_⟩
          intro j0 c0 hj0 hc0
          exact hall (j0 + 1) c0 (by omega) (by simpa using hc0)
    · simp only [scan, h, if_false]
      constructor
      · intro hi
        have hik : i = k := by simpa using hi.symm
        exact ⟨0, c, by omega, by simp, not_le.1 h, by intro j0 c0 hj0; omega⟩
      · rintro ⟨j, c1, rfl, hj, hlt, hall⟩
        cases j with
        | zero => rfl
        | succ j => exact absurd (hall 0 c (by omega) (by simp)) h

theorem densityIndex_eq_some_iff (f : E → K) (S : List E) (hS : S ≠ []) (val : K) (i : Nat) :
    densityIndex f S val = some i ↔
      i < S.length ∧ val < C f S i ∧ ∀ j : Nat, j < i → C f S j ≤ val := by
  simp only [densityIndex, cum_eq f S hS, scan_eq_some_iff, Nat.zero_add]
  constructor
  · rintro ⟨j, c, rfl, hj, hlt, hall⟩
    have hin : i < S.length := by
      by_contra hcon
      have hnone : (List.range S.length)[i]? = none :=
        List.getElem?_eq_none (by simpa using hcon)
      simp [hnone] at hj
    simp [List.getElem?_range hin] at hj
    subst hj
    refine ⟨hin, hlt, ?_⟩
    intro j0 hj0
    exact hall j0 _ hj0 (by simp [List.getElem?_range (lt_trans hj0 hin)])
  · rintro ⟨hi, hlt, hall⟩
    refine ⟨i, C f S i, rfl, by simp [List.getElem?_range hi], hlt, ?_⟩
    intro j0 c0 hj0 hc0
    simp [List.getElem?_range (lt_trans hj0 hi)] at hc0
    subst hc0
    exact hall j0 hj0

theorem density_eq_densityAt (f : E → K) (S : List E) (hS : S ≠ []) (u0 : K) :
    density f S u0 = densityAt f S (uniform_min_max 0 (C f S (S.length - 1)) u0) := by
  have hn : S.length - 1 < S.length :=
    Nat.sub_lt (List.length_pos.2 hS) Nat.one_pos
  simp [density, cum_eq f S hS, List.getElem?_range hn]

theorem densityAt_eq_of_index (f : E → K) (S : List E) (val : K) (i : Nat)
    (h : densityIndex f S val = some i) : densityAt f S val = S[i]? := by
  simp [densityAt, h]

theorem C_sub_Cprev (f : E → K) (S : List E) (i : Nat) (e : E) (hi : S[i]? = some e) :
    C f S i - Cprev f S i = f e := by
  cases i with
  | zero =>
    cases S with
    | nil => simp at hi
    | cons a rest =>
      simp at hi
      subst hi
      simp [C, Cprev]
  | succ i => simp [Cprev, C_succ f S i e hi]

theorem C_nonneg (f : E → K) (S : List E) (hf : ∀ x ∈ S, 0 ≤ f x) (i : Nat) :
    0 ≤ C f S i := by
  apply List.sum_nonneg
  intro y hy
  obtain ⟨x, hx, rfl⟩ := List.mem_map.1 hy
  exact hf x (List.mem_of_mem_take hx)

theorem C_mono (f : E → K) (S : List E) (hf : ∀ x ∈ S, 0 ≤ f x) : Monotone (C f S) := by
  apply monotone_nat_of_le_succ
  intro i
  cases h : S[i + 1]? with
  | none => simp [C, @List.take_succ _ S (i + 1), h]
  | some e =>
    rw [C_succ f S i e h]
    exact le_add_of_nonneg_right (hf e (mem_of_getElem?_eq_some h))

theorem Cprev_nonneg (f : E → K) (S : List E) (hf : ∀ x ∈ S, 0 ≤ f x) (i : Nat) :
    0 ≤ Cprev f S i := by
  cases i with
  | zero => exact le_refl _
  | succ i => exact C_nonneg f S hf i

theorem densityIndex_iff_interval (f : E → K) (S : List E) (hS : S ≠ [])
    (hf : ∀ x ∈ S, 0 ≤ f x) (i : Nat) (hin : i < S.length) (u : K) (hu0 : 0 ≤ u) :
    densityIndex f S u = some i ↔ Cprev f S i ≤ u ∧ u < C f S i := by
  rw [densityIndex_eq_some_iff f S hS u i]
  constructor
  · rintro ⟨_, hlt, hall⟩
    refine ⟨?_, hlt⟩
    cases i with
    | zero => exact hu0
    | succ i => exact hall i (Nat.lt_succ_self i)
  · rintro ⟨hle, hlt⟩
    refine ⟨hin, hlt, ?_⟩
    intro j hj
    cases i with
    | zero => omega
    | succ i => exact le_trans (C_mono f S hf (Nat.le_of_lt_succ hj)) hle

/-! ### Claims on `density` -/

/-- C8: `density` is inverse-CDF sampling. On a non-empty sequence with
non-negative weights and positive total `C_{n-1}`, the vector `cum` holds the
running sums `C_0, ..., C_{n-1}`, and for every draw value `u` with
`0 ≤ u < C_{n-1}` the scan stops at an index `i < n`, the least one with
`u < C_i`, and `density` returns `e_i`; this is the result of `density` for
every `uniform()` value `u0` whose affine image `uniform(0, C_{n-1})` is
`u`. -/
theorem density_inverse_cdf (f : E → K) (S : List E) (u : K) (hS : S ≠ [])
    (_hf : ∀ e ∈ S, 0 ≤ f e) (_htot : 0 < C f S (S.length - 1))
    (_hu0 : 0 ≤ u) (hu : u < C f S (S.length - 1)) :
    cum f S = some ((List.range S.length).map (C f S)) ∧
    ∃ (i : Nat) (e : E), i < S.length ∧ S[i]? = some e ∧
      densityIndex f S u = some i ∧ densityAt f S u = some e ∧
      u < C f S i ∧ (∀ j : Nat, j < i → C f S j ≤ u) ∧
      (∀ u0 : K, uniform_min_max 0 (C f S (S.length - 1)) u0 = u →
        density f S u0 = some e) := by
  refine ⟨cum_eq f S hS, ?_⟩
  have hex : ∃ i : Nat, u < C f S i := ⟨S.length - 1, hu⟩
  have hn : S.length - 1 < S.length :=
    Nat.sub_lt (List.length_pos.2 hS) Nat.one_pos
  have hlt : Nat.find hex < S.length :=
    lt_of_le_of_lt (Nat.find_min' hex hu) hn
  have hidx : densityIndex f S u = some (Nat.find hex) :=
    (densityIndex_eq_some_iff f S hS u (Nat.find hex)).2
      ⟨hlt, Nat.find_spec hex, fun j hj => not_lt.1 (Nat.find_min hex hj)⟩
  have hat : densityAt f S u = some (S.get ⟨Nat.find hex, hlt⟩) := by
    rw [densityAt_eq_of_index f S u _ hidx]
    exact List.getElem?_eq_getElem hlt
  refine ⟨Nat.find hex, S.get ⟨Nat.find hex, hlt⟩, hlt, List.getElem?_eq_getElem hlt, hidx,
    hat, Nat.find_spec hex, fun j hj => not_lt.1 (Nat.find_min hex hj), ?_⟩
  intro u0 hu0
  rw [density_eq_densityAt f S hS u0, hu0, hat]

theorem density_inverse_cdf_witness :
    ([0, 1, 2] : List Nat) ≠ [] ∧
    (∀ e ∈ ([0, 1, 2] : List Nat), (0 : ℚ) ≤ (e : ℚ) + 1) ∧
    (0 : ℚ) < C (fun a : Nat => (a : ℚ) + 1) [0, 1, 2] ([0, 1, 2].length - 1) ∧
    (0 : ℚ) ≤ 2 ∧
    (2 : ℚ) < C (fun a : Nat => (a : ℚ) + 1) [0, 1, 2] ([0, 1, 2].length - 1) ∧
    (cum (fun a : Nat => (a : ℚ) + 1) [0, 1, 2] =
        some ((List.range [0, 1, 2].length).map (C (fun a : Nat => (a : ℚ) + 1) [0, 1, 2])) ∧
    ∃ (i : Nat) (e : Nat), i < [0, 1, 2].length ∧ [0, 1, 2][i]? = some e ∧
      densityIndex (fun a : Nat => (a : ℚ) + 1) [0, 1, 2] 2 = some i ∧
      densityAt (fun a : Nat => (a : ℚ) + 1) [0, 1, 2] 2 = some e ∧
      (2 : ℚ) < C (fun a : Nat => (a : ℚ) + 1) [0, 1, 2] i ∧
      (∀ j : Nat, j < i → C (fun a : Nat => (a : ℚ) + 1) [0, 1, 2] j ≤ 2) ∧
      (∀ u0 : ℚ, uniform_min_max 0
          (C (fun a : Nat => (a : ℚ) + 1) [0, 1, 2] ([0, 1, 2].length - 1)) u0 = 2 →
        density (fun a : Nat => (a : ℚ) + 1) [0, 1, 2] u0 = some e)) :=
  ⟨by decide, by intro e _; positivity, by norm_num [C], by norm_num, by norm_num [C],
    density_inverse_cdf (fun a : Nat => (a : ℚ) + 1) [0, 1, 2] 2 (by decide)
      (by intro e _; positivity) (by norm_num [C]) (by norm_num) (by norm_num [C])⟩

theorem density_weights_123 (u0 : K) (h1 : u0 < 1) :
    (density (fun a : Nat => (a : K) + 1) [0, 1, 2] u0 = some 0 ↔ u0 < 1 / 6) ∧
    (density (fun a : Nat => (a : K) + 1) [0, 1, 2] u0 = some 1 ↔
      1 / 6 ≤ u0 ∧ u0 < 3 / 6) ∧
    (density (fun a : Nat => (a : K) + 1) [0, 1, 2] u0 = some 2 ↔ 3 / 6 ≤ u0) := by
  have hcum : cum (fun a : Nat => (a : K) + 1) [0, 1, 2] = some [1, 3, 6] := by
    simp [cum, cumLoop]
    norm_num
  have hscan : ∀ v : K, scan v [1, 3, 6] 0 =
      if v ≥ 1 then (if v ≥ 3 then (if v ≥ 6 then none else some 2) else some 1)
      else some 0 := fun v => rfl
  have hd : density (fun a : Nat => (a : K) + 1) [0, 1, 2] u0 =
      if 6 * u0 ≥ 1 then (if 6 * u0 ≥ 3 then some 2 else some 1) else some 0 := by
    have h6 : ¬ 6 * u0 ≥ 6 := fun h => by linarith
    simp only [density, densityAt, densityIndex, hcum, hscan, uniform_min_max]
    simp only [List.length_cons, List.length_nil, Nat.zero_add, Nat.reduceAdd, Nat.add_one_sub_one,
      List.getElem?_cons_succ, List.getElem?_cons_zero, zero_add, sub_zero, h6, if_false]
    by_cases a : 6 * u0 ≥ 1 <;> by_cases b : 6 * u0 ≥ 3 <;> simp [a, b]
  have k1 : u0 < 1 / 6 ↔ ¬ 6 * u0 ≥ 1 := by
    rw [not_le]
    constructor <;> intro h <;> linarith
  have k2 : 1 / 6 ≤ u0 ↔ 6 * u0 ≥ 1 := by
    constructor <;> intro h <;> linarith
  have k3 : u0 < 3 / 6 ↔ ¬ 6 * u0 ≥ 3 := by
    rw [not_le]
    constructor <;> intro h <;> linarith
  have k4 : 3 / 6 ≤ u0 ↔ 6 * u0 ≥ 3 := by
    constructor <;> intro h <;> linarith
  rw [hd, k1, k2, k3, k4]
  by_cases a : 6 * u0 ≥ 1
  · by_cases b : 6 * u0 ≥ 3 <;> simp [a, b]
  · have b : ¬ 6 * u0 ≥ 3 := fun h => a (by linarith)
    simp [a, b]

theorem densityAt_eq_some_iff (f : E → K) (S : List E) (val : K) (e : E) :
    densityAt f S val = some e ↔
      ∃ i : Nat, densityIndex f S val = some i ∧ S[i]? = some e := by
  unfold densityAt
  cases h : densityIndex f S val with
  | none => simp
  | some i => simp

/-- C9: `density` gives each element a share of the draws proportional to its
weight. On a non-empty sequence with non-negative weights and positive total
`C_{n-1}`, for the element `e` at position `i`:
the scan stops at `i` exactly for the draw values `u` with
`C_{i-1} ≤ u < C_i` (`C_{-1} = 0`), and `density` then returns `e`; this
interval lies inside `[0, C_{n-1})` and has length `f(e)`; in terms of the
`uniform()` value `u0` in `[0,1)` it is the interval
`[C_{i-1}/C_{n-1}, C_i/C_{n-1})` of length `f(e)/C_{n-1}`; an element of weight
`0` is never returned; and with the weights `1,2,3` the three elements are
returned for `u0` in `[0,1/6)`, `[1/6,3/6)` and `[3/6,1)`. -/
theorem density_proportional (f : E → K) (S : List E) (i : Nat) (e : E) (hS : S ≠ [])
    (hf : ∀ x ∈ S, 0 ≤ f x) (htot : 0 < C f S (S.length - 1)) (hi : S[i]? = some e) :
    (∀ u : K, 0 ≤ u → u < C f S (S.length - 1) →
      (densityIndex f S u = some i ↔ Cprev f S i ≤ u ∧ u < C f S i)) ∧
    (∀ u : K, Cprev f S i ≤ u → u < C f S i → densityAt f S u = some e) ∧
    (0 ≤ Cprev f S i ∧ C f S i ≤ C f S (S.length - 1) ∧ C f S i - Cprev f S i = f e) ∧
    (∀ u0 : K, 0 ≤ u0 → u0 < 1 →
      (densityIndex f S (uniform_min_max 0 (C f S (S.length - 1)) u0) = some i ↔
        Cprev f S i / C f S (S.length - 1) ≤ u0 ∧ u0 < C f S i / C f S (S.length - 1))) ∧
    (C f S i / C f S (S.length - 1) - Cprev f S i / C f S (S.length - 1) =
      f e / C f S (S.length - 1)) ∧
    (f e = 0 → ∀ u : K, 0 ≤ u → u < C f S (S.length - 1) → densityAt f S u ≠ some e) ∧
    (∀ u0 : K, 0 ≤ u0 → u0 < 1 →
      (density (fun a : Nat => (a : K) + 1) [0, 1, 2] u0 = some 0 ↔ u0 < 1 / 6) ∧
      (density (fun a : Nat => (a : K) + 1) [0, 1, 2] u0 = some 1 ↔
        1 / 6 ≤ u0 ∧ u0 < 3 / 6) ∧
      (density (fun a : Nat => (a : K) + 1) [0, 1, 2] u0 = some 2 ↔ 3 / 6 ≤ u0)) := by
  have hin : i < S.length := (List.getElem?_eq_some.1 hi).1
  have hlen : C f S i - Cprev f S i = f e := C_sub_Cprev f S i e hi
  refine ⟨?_, ?_, ⟨Cprev_nonneg f S hf i, C_mono f S hf (by omega), hlen⟩, ?_, ?_, ?_, ?_⟩
  · intro u hu0 _
    exact densityIndex_iff_interval f S hS hf i hin u hu0
  · intro u hlo hhi
    have hu0 : 0 ≤ u := le_trans (Cprev_nonneg f S hf i) hlo
    rw [densityAt_eq_of_index f S u i
      ((densityIndex_iff_interval f S hS hf i hin u hu0).2 ⟨hlo, hhi⟩)]
    exact hi
  · intro u0 hu0 _
    have hval : uniform_min_max 0 (C f S (S.length - 1)) u0 = u0 * C f S (S.length - 1) := by
      simp [uniform_min_max, mul_comm]
    rw [hval, densityIndex_iff_interval f S hS hf i hin _ (mul_nonneg hu0 (le_of_lt htot)),
      div_le_iff₀ htot, lt_div_iff₀ htot]
  · rw [← sub_div, hlen]
  · intro hz u hu0 _ hcon
    obtain ⟨j, hj, hje⟩ := (densityAt_eq_some_iff f S u e).1 hcon
    have hjn : j < S.length := (List.getElem?_eq_some.1 hje).1
    have hint := (densityIndex_iff_interval f S hS hf j hjn u hu0).1 hj
    have hjlen : C f S j - Cprev f S j = f e := C_sub_Cprev f S j e hje
    have : Cprev f S j < C f S j := lt_of_le_of_lt hint.1 hint.2
    linarith
  · intro u0 _ hu1
    exact density_weights_123 u0 hu1

theorem C_one_hot (f : E → K) (S : List E) (k : Nat)
    (hw : ∀ (j : Nat) (x : E), S[j]? = some x → f x = if j = k then 1 else 0)
    (j : Nat) (hj : j < S.length) : C f S j = if k ≤ j then 1 else 0 := by
  induction j with
  | zero =>
    cases S with
    | nil => simp at hj
    | cons a rest =>
      rw [C_zero, hw 0 a (by simp)]
      by_cases h : k = 0
      · simp [h]
      · have h2 : ¬ 0 = k := fun h3 => h h3.symm
        simp [h, h2]
  | succ j ih =>
    have hx : S[j + 1]? = some (S.get ⟨j + 1, hj⟩) := List.getElem?_eq_getElem hj
    rw [C_succ f S j _ hx, ih (by omega), hw (j + 1) _ hx]
    by_cases h1 : k ≤ j
    · have h2 : ¬ j + 1 = k := by omega
      have h3 : k ≤ j + 1 := by omega
      simp [h1, h2, h3]
    · by_cases h2 : j + 1 = k
      · have h3 : k ≤ j + 1 := by omega
        simp [h1, h2]
      · have h3 : ¬ k ≤ j + 1 := by omega
        simp [h1, h2, h3]

/-- C10: degenerate distribution. For a sequence of length `n ≥ 1`, an index
`k < n` and the one-hot weight function (weight `1` at position `k`, `0` at
every other position), `density` returns the element at position `k` for
every `uniform()` value in `[0,1)`. -/
theorem density_one_hot (f : E → K) (S : List E) (k : Nat) (u0 : K) (hk : k < S.length)
    (hw : ∀ (j : Nat) (x : E), S[j]? = some x → f x = if j = k then 1 else 0)
    (h0 : 0 ≤ u0) (h1 : u0 < 1) :
    ∃ e : E, S[k]? = some e ∧ density f S u0 = some e := by
  have hS : S ≠ [] := by
    intro h
    simp [h] at hk
  have hn : S.length - 1 < S.length := by omega
  have htot : C f S (S.length - 1) = 1 := by
    rw [C_one_hot f S k hw _ hn, if_pos (by omega)]
  have hval : uniform_min_max 0 (C f S (S.length - 1)) u0 = u0 := by
    simp [uniform_min_max, htot]
  have hidx : densityIndex f S u0 = some k := by
    rw [densityIndex_eq_some_iff f S hS u0 k]
    refine ⟨hk, ?_, ?_⟩
    · rw [C_one_hot f S k hw k hk, if_pos (le_refl k)]
      exact h1
    · intro j hj
      rw [C_one_hot f S k hw j (by omega), if_neg (by omega)]
      exact h0
  refine ⟨S.get ⟨k, hk⟩, List.getElem?_eq_getElem hk, ?_⟩
  rw [density_eq_densityAt f S hS u0, hval, densityAt_eq_of_index f S u0 k hidx]
  exact List.getElem?_eq_getElem hk

theorem density_one_hot_witness :
    (1 < [10, 20, 30].length) ∧
    (∀ (j : Nat) (x : Nat), [10, 20, 30][j]? = some x →
      (if x = 20 then (1 : ℚ) else 0) = if j = 1 then 1 else 0) ∧
    ((0 : ℚ) ≤ 1 / 2) ∧ ((1 : ℚ) / 2 < 1) ∧
    ∃ e : Nat, [10, 20, 30][1]? = some e ∧
      density (fun a : Nat => if a = 20 then (1 : ℚ) else 0) [10, 20, 30] (1 / 2) = some e :=
  ⟨by decide,
    by
      intro j x h
      rcases j with _ | _ | _ | j <;> simp at h <;> subst h <;> simp,
    by norm_num, by norm_num,
    density_one_hot (fun a : Nat => if a = 20 then (1 : ℚ) else 0) [10, 20, 30] 1 (1 / 2)
      (by decide)
      (by
        intro j x h
        rcases j with _ | _ | _ | j <;> simp at h <;> subst h <;> simp)
      (by norm_num) (by norm_num)⟩

theorem density_proportional_witness :
    ([0, 1, 2] : List Nat) ≠ [] ∧
    (∀ x ∈ ([0, 1, 2] : List Nat), (0 : ℚ) ≤ (x : ℚ) + 1) ∧
    (0 : ℚ) < C (fun a : Nat => (a : ℚ) + 1) [0, 1, 2] ([0, 1, 2].length - 1) ∧
    [0, 1, 2][1]? = some 1 ∧
    ((∀ u : ℚ, 0 ≤ u → u < C (fun a : Nat => (a : ℚ) + 1) [0, 1, 2] ([0, 1, 2].length - 1) →
      (densityIndex (fun a : Nat => (a : ℚ) + 1) [0, 1, 2] u = some 1 ↔
        Cprev (fun a : Nat => (a : ℚ) + 1) [0, 1, 2] 1 ≤ u ∧
          u < C (fun a : Nat => (a : ℚ) + 1) [0, 1, 2] 1)) ∧
    (∀ u : ℚ, Cprev (fun a : Nat => (a : ℚ) + 1) [0, 1, 2] 1 ≤ u →
      u < C (fun a : Nat => (a : ℚ) + 1) [0, 1, 2] 1 →
      densityAt (fun a : Nat => (a : ℚ) + 1) [0, 1, 2] u = some 1) ∧
    (0 ≤ Cprev (fun a : Nat => (a : ℚ) + 1) [0, 1, 2] 1 ∧
      C (fun a : Nat => (a : ℚ) + 1) [0, 1, 2] 1 ≤
        C (fun a : Nat => (a : ℚ) + 1) [0, 1, 2] ([0, 1, 2].length - 1) ∧
      C (fun a : Nat => (a : ℚ) + 1) [0, 1, 2] 1 -
        Cprev (fun a : Nat => (a : ℚ) + 1) [0, 1, 2] 1 = ((1 : Nat) : ℚ) + 1) ∧
    (∀ u0 : ℚ, 0 ≤ u0 → u0 < 1 →
      (densityIndex (fun a : Nat => (a : ℚ) + 1) [0, 1, 2]
          (uniform_min_max 0
            (C (fun a : Nat => (a : ℚ) + 1) [0, 1, 2] ([0, 1, 2].length - 1)) u0) = some 1 ↔
        Cprev (fun a : Nat => (a : ℚ) + 1) [0, 1, 2] 1 /
            C (fun a : Nat => (a : ℚ) + 1) [0, 1, 2] ([0, 1, 2].length - 1) ≤ u0 ∧
          u0 < C (fun a : Nat => (a : ℚ) + 1) [0, 1, 2] 1 /
            C (fun a : Nat => (a : ℚ) + 1) [0, 1, 2] ([0, 1, 2].length - 1))) ∧
    (C (fun a : Nat => (a : ℚ) + 1) [0, 1, 2] 1 /
          C (fun a : Nat => (a : ℚ) + 1) [0, 1, 2] ([0, 1, 2].length - 1) -
        Cprev (fun a : Nat => (a : ℚ) + 1) [0, 1, 2] 1 /
          C (fun a : Nat => (a : ℚ) + 1) [0, 1, 2] ([0, 1, 2].length - 1) =
      (((1 : Nat) : ℚ) + 1) / C (fun a : Nat => (a : ℚ) + 1) [0, 1, 2] ([0, 1, 2].length - 1)) ∧
    (((1 : Nat) : ℚ) + 1 = 0 → ∀ u : ℚ, 0 ≤ u →
      u < C (fun a : Nat => (a : ℚ) + 1) [0, 1, 2] ([0, 1, 2].length - 1) →
      densityAt (fun a : Nat => (a : ℚ) + 1) [0, 1, 2] u ≠ some 1) ∧
    (∀ u0 : ℚ, 0 ≤ u0 → u0 < 1 →
      (density (fun a : Nat => (a : ℚ) + 1) [0, 1, 2] u0 = some 0 ↔ u0 < 1 / 6) ∧
      (density (fun a : Nat => (a : ℚ) + 1) [0, 1, 2] u0 = some 1 ↔
        1 / 6 ≤ u0 ∧ u0 < 3 / 6) ∧
      (density (fun a : Nat => (a : ℚ) + 1) [0, 1, 2] u0 = some 2 ↔ 3 / 6 ≤ u0))) :=
  ⟨by decide, by intro x _; positivity, by norm_num [C], by decide,
    density_proportional (fun a : Nat => (a : ℚ) + 1) [0, 1, 2] 1 1 (by decide)
      (by intro x _; positivity) (by norm_num [C]) (by decide)⟩

/-! ## Uniform draws, tosses and uniform picks -/

theorem uniform_nonneg_lt_one (K : Type) [LinearOrderedField K] (RAND_MAX r : Nat)
    (hr : r ≤ RAND_MAX) :
    0 ≤ (uniform RAND_MAX r : K) ∧ (uniform RAND_MAX r : K) < 1 := by
  have hpos : (0 : K) < 1 + (RAND_MAX : K) := by positivity
  have hrK : (r : K) ≤ (RAND_MAX : K) := by exact_mod_cast hr
  unfold uniform
  refine ⟨div_nonneg (by positivity) (le_of_lt hpos), ?_⟩
  rw [div_lt_one hpos]
  linarith

theorem uniform_min_max_mem (mn mx u0 : K) (h : mn < mx) (h0 : 0 ≤ u0) (h1 : u0 < 1) :
    mn ≤ uniform_min_max mn mx u0 ∧ uniform_min_max mn mx u0 < mx := by
  have hd : 0 < mx - mn := sub_pos.2 h
  unfold uniform_min_max
  constructor
  · have := mul_nonneg (le_of_lt hd) h0
    linarith
  · have := mul_lt_mul_of_pos_left h1 hd
    linarith

/-- C19: range of the uniform draws in exact arithmetic. For every value `r`
of the generator with `0 ≤ r ≤ RAND_MAX`, `uniform() = r / (1 + RAND_MAX)` lies
in `[0,1)`, and for every `min < max` the value
`uniform(min,max) = min + (max - min) * uniform()` lies in `[min,max)`. -/
theorem uniform_range (K : Type) [LinearOrderedField K] (RAND_MAX r : Nat)
    (hr : r ≤ RAND_MAX) :
    (0 ≤ (uniform RAND_MAX r : K) ∧ (uniform RAND_MAX r : K) < 1) ∧
    ∀ mn mx : K, mn < mx →
      mn ≤ uniform_min_max mn mx (uniform RAND_MAX r) ∧
      uniform_min_max mn mx (uniform RAND_MAX r) < mx := by
  have hu := uniform_nonneg_lt_one K RAND_MAX r hr
  exact ⟨hu, fun mn mx h => uniform_min_max_mem mn mx _ h hu.1 hu.2⟩

theorem uniform_range_witness :
    (32767 ≤ 32767) ∧
    ((0 ≤ (uniform 32767 32767 : ℚ) ∧ (uniform 32767 32767 : ℚ) < 1) ∧
    ∀ mn mx : ℚ, mn < mx →
      mn ≤ uniform_min_max mn mx (uniform 32767 32767) ∧
      uniform_min_max mn mx (uniform 32767 32767) < mx) :=
  ⟨le_refl _, uniform_range ℚ 32767 32767 (le_refl _)⟩

theorem trunc_of_nonneg [FloorRing K] (x : K) (h : 0 ≤ x) : trunc x = Int.floor x := by
  simp [trunc, h]

theorem selectIndex_eq_iff [FloorRing K] (S : List E) (u : K) (hn : 1 ≤ S.length)
    (h0 : 0 ≤ u) (i : Nat) :
    selectIndex S u = (i : Int) ↔
      (i : K) / (S.length : K) ≤ u ∧ u < ((i : K) + 1) / (S.length : K) := by
  have hpos : (0 : K) < (S.length : K) := by exact_mod_cast hn
  unfold selectIndex
  rw [trunc_of_nonneg _ (mul_nonneg h0 (le_of_lt hpos)), Int.floor_eq_iff,
    div_le_iff₀ hpos, lt_div_iff₀ hpos]
  simp

theorem selectIndex_bounds [FloorRing K] (S : List E) (u : K) (hn : 1 ≤ S.length)
    (h0 : 0 ≤ u) (h1 : u < 1) :
    0 ≤ selectIndex S u ∧ selectIndex S u < (S.length : Int) := by
  have hpos : (0 : K) < (S.length : K) := by exact_mod_cast hn
  have hx : 0 ≤ u * (S.length : K) := mul_nonneg h0 (le_of_lt hpos)
  unfold selectIndex
  rw [trunc_of_nonneg _ hx]
  refine ⟨Int.floor_nonneg.2 hx, ?_⟩
  rw [Int.floor_lt]
  have := mul_lt_mul_of_pos_right h1 hpos
  simpa using this

/-- C20: `select` stays in bounds and picks uniformly. For a cursor pair of
length `n ≥ 1` and a draw `u` in `[0,1)`, the index `trunc(u * n)` satisfies
`0 ≤ index < n` and `select` returns the element at that index; position `i`
is the index exactly for `u` in `[i/n, (i+1)/n)`, an interval of length `1/n`
for every `i`; and the policy `Random` returns what `select` returns. -/
theorem select_in_bounds_uniform [FloorRing K] (S : List E) (u : K) (hn : 1 ≤ S.length)
    (h0 : 0 ≤ u) (h1 : u < 1) :
    (0 ≤ selectIndex S u ∧ selectIndex S u < (S.length : Int)) ∧
    (∃ e : E, S[(selectIndex S u).toNat]? = some e ∧ select S u = some e) ∧
    (∀ i : Nat, i < S.length →
      (selectIndex S u = (i : Int) ↔
        (i : K) / (S.length : K) ≤ u ∧ u < ((i : K) + 1) / (S.length : K))) ∧
    (∀ i : Nat, ((i : K) + 1) / (S.length : K) - (i : K) / (S.length : K) =
      1 / (S.length : K)) ∧
    (∀ (STATE : Type) (s : STATE), policy.Random S s u = select S u) := by
  have hb := selectIndex_bounds S u hn h0 h1
  have hlt : (selectIndex S u).toNat < S.length := by
    have := hb.1
    have := hb.2
    omega
  refine ⟨hb, ⟨S.get ⟨_, hlt⟩, List.getElem?_eq_getElem hlt, ?_⟩, ?_, ?_, fun _ _ => rfl⟩
  · simp only [select, hb.1, if_true]
    exact List.getElem?_eq_getElem hlt
  · intro i _
    exact selectIndex_eq_iff S u hn h0 i
  · intro i
    rw [← sub_div]
    simp

theorem select_in_bounds_uniform_witness :
    (1 ≤ [10, 20, 30].length) ∧ ((0 : ℚ) ≤ 1 / 2) ∧ ((1 : ℚ) / 2 < 1) ∧
    ((0 ≤ selectIndex [10, 20, 30] (1 / 2 : ℚ) ∧
      selectIndex [10, 20, 30] (1 / 2 : ℚ) < ([10, 20, 30].length : Int)) ∧
    (∃ e : Nat, [10, 20, 30][(selectIndex [10, 20, 30] (1 / 2 : ℚ)).toNat]? = some e ∧
      select [10, 20, 30] (1 / 2 : ℚ) = some e) ∧
    (∀ i : Nat, i < [10, 20, 30].length →
      (selectIndex [10, 20, 30] (1 / 2 : ℚ) = (i : Int) ↔
        (i : ℚ) / ([10, 20, 30].length : ℚ) ≤ 1 / 2 ∧
          1 / 2 < ((i : ℚ) + 1) / ([10, 20, 30].length : ℚ))) ∧
    (∀ i : Nat, ((i : ℚ) + 1) / ([10, 20, 30].length : ℚ) -
        (i : ℚ) / ([10, 20, 30].length : ℚ) = 1 / ([10, 20, 30].length : ℚ)) ∧
    (∀ (STATE : Type) (s : STATE),
      policy.Random [10, 20, 30] s (1 / 2 : ℚ) = select [10, 20, 30] (1 / 2 : ℚ))) :=
  ⟨by decide, by norm_num, by norm_num,
    select_in_bounds_uniform [10, 20, 30] (1 / 2 : ℚ) (by decide) (by norm_num) (by norm_num)⟩

end random

end rl

namespace rl

namespace policy

section Exploration

variable {E : Type} {V : Type} [LT V] [DecidableRel (fun a b : V => a < b)]
variable {K : Type} [LinearOrderedField K] [FloorRing K] {STATE : Type}

/-! ## Exploring policies -/

/-- C12: `EpsilonGreedy` with `epsilon = 0` returns what `Greedy` returns. For
every state, action-value function, non-empty action sequence (of either kind
of cursor) and every `uniform()` value in `[0,1)` consumed by the toss,
`toss(0)` is false and `EpsilonGreedy` returns exactly the action of `Greedy`,
whatever value a second draw would have. -/
theorem EpsilonGreedy_zero_eq_Greedy (d : Deref) (q : STATE → E → V) (S : List E)
    (s : STATE) (u1 u2 : K) (_hS : S ≠ []) (h0 : 0 ≤ u1) (_h1 : u1 < 1) :
    random.toss 0 u1 = false ∧ EpsilonGreedy d q 0 S s u1 u2 = Greedy d q S s := by
  have ht : random.toss 0 u1 = false := by
    simp [random.toss, h0]
  exact ⟨ht, by simp [EpsilonGreedy, Greedy, ht]⟩

theorem EpsilonGreedy_zero_eq_Greedy_witness :
    ([2, 0, 1, 3] : List Nat) ≠ [] ∧ ((0 : ℚ) ≤ 1 / 3) ∧ ((1 : ℚ) / 3 < 1) ∧
    (random.toss 0 (1 / 3 : ℚ) = false ∧
      EpsilonGreedy Deref.value (fun (s : Nat) (a : Nat) => (s + a) % 3) 0 [2, 0, 1, 3] 5
        (1 / 3 : ℚ) (1 / 2) =
      Greedy Deref.value (fun (s : Nat) (a : Nat) => (s + a) % 3) [2, 0, 1, 3] 5) :=
  ⟨by decide, by norm_num, by norm_num,
    EpsilonGreedy_zero_eq_Greedy Deref.value (fun (s : Nat) (a : Nat) => (s + a) % 3)
      [2, 0, 1, 3] 5 (1 / 3 : ℚ) (1 / 2) (by decide) (by norm_num) (by norm_num)⟩

/-- C13: `EpsilonGreedy` with `epsilon = 1` degenerates to `Random`. For every
state, every toss draw `u1` in `[0,1)` and every selection draw `u2` in
`[0,1)`, `toss(1)` is true, so the greedy branch is not taken, and
`EpsilonGreedy` returns exactly the action that `Random` returns for the draw
`u2`, the uniform pick `select` over the same action sequence. -/
theorem EpsilonGreedy_one_eq_Random (d : Deref) (q : STATE → E → V) (S : List E)
    (s : STATE) (u1 u2 : K) (_h0 : 0 ≤ u1) (h1 : u1 < 1) (_h2 : 0 ≤ u2) (_h3 : u2 < 1) :
    random.toss 1 u1 = true ∧ EpsilonGreedy d q 1 S s u1 u2 = Random S s u2 ∧
      Random S s u2 = random.select S u2 := by
  have ht : random.toss 1 u1 = true := by
    simp [random.toss, h1]
  exact ⟨ht, by simp [EpsilonGreedy, Random, ht], rfl⟩

theorem EpsilonGreedy_one_eq_Random_witness :
    ((0 : ℚ) ≤ 1 / 3) ∧ ((1 : ℚ) / 3 < 1) ∧ ((0 : ℚ) ≤ 1 / 2) ∧ ((1 : ℚ) / 2 < 1) ∧
    (random.toss 1 (1 / 3 : ℚ) = true ∧
      EpsilonGreedy Deref.value (fun (s : Nat) (a : Nat) => (s + a) % 3) 1 [2, 0, 1, 3] 5
        (1 / 3 : ℚ) (1 / 2) = Random [2, 0, 1, 3] 5 (1 / 2 : ℚ) ∧
      Random [2, 0, 1, 3] 5 (1 / 2 : ℚ) = random.select [2, 0, 1, 3] (1 / 2 : ℚ)) :=
  ⟨by norm_num, by norm_num, by norm_num, by norm_num,
    EpsilonGreedy_one_eq_Random Deref.value (fun (s : Nat) (a : Nat) => (s + a) % 3)
      [2, 0, 1, 3] 5 (1 / 3 : ℚ) (1 / 2) (by norm_num) (by norm_num) (by norm_num)
      (by norm_num)⟩

end Exploration

end policy

end rl

namespace rl

namespace enumerator

variable {T : Type}

/-! ## Enumeration adapter -/

theorem int_result_eq_some_iff (INT_MIN INT_MAX x y : Int) :
    int_result INT_MIN INT_MAX x = some y ↔ (INT_MIN ≤ x ∧ x ≤ INT_MAX) ∧ y = x := by
  unfold int_result
  by_cases h : INT_MIN ≤ x ∧ x ≤ INT_MAX
  · simp [h, eq_comm]
  · simp [h]

theorem int_result_of_mem (INT_MIN INT_MAX x : Int) (h1 : INT_MIN ≤ x) (h2 : x ≤ INT_MAX) :
    int_result INT_MIN INT_MAX x = some x :=
  (int_result_eq_some_iff INT_MIN INT_MAX x x).2 ⟨⟨h1, h2⟩, rfl⟩

theorem enumerate_from (INT_MIN INT_MAX : Int) (cast : Int → T) (d a fuel : Nat)
    (hfuel : d ≤ fuel) (hmin : INT_MIN ≤ (a : Int)) (hmax : ((a + d : Nat) : Int) ≤ INT_MAX) :
    enumerate INT_MIN INT_MAX cast fuel (enumerator.mk (a : Int))
        (enumerator.mk ((a + d : Nat) : Int)) =
      some ((List.range' a d).map (fun i : Nat => cast (i : Int))) := by
  induction d generalizing a fuel with
  | zero =>
    cases fuel with
    | zero => simp [enumerate, ne]
    | succ fuel => simp [enumerate, ne]
  | succ d ih =>
    cases fuel with
    | zero => omega
    | succ fuel =>
      have hne : ne (enumerator.mk (a : Int) : enumerator T)
          (enumerator.mk ((a + (d + 1) : Nat) : Int)) = true := by
        simp only [ne, decide_eq_true_eq]
        push_cast
        omega
      have hincr : incr INT_MIN INT_MAX (enumerator.mk (a : Int) : enumerator T) =
          some (enumerator.mk ((a + 1 : Nat) : Int)) := by
        have hle : (a : Int) + 1 ≤ INT_MAX := by
          push_cast at hmax
          omega
        simp only [incr, int_result_of_mem INT_MIN INT_MAX _ (by omega) hle]
        simp
      have hrec := ih (a + 1) fuel (by omega) (by push_cast; omega)
        (by rw [Nat.add_right_comm, Nat.add_assoc]; exact hmax)
      have hidx : a + 1 + d = a + (d + 1) := by omega
      rw [hidx] at hrec
      simp only [enumerate, hne, if_true, hincr, hrec, deref, List.range'_succ, List.map_cons]

/-- C18: the cursor pair `(enumerator(0), enumerator(N))` enumerates `N`
actions. For every `N ≥ 0` that is an `int`, starting at `enumerator(0)` and
applying `++` until the cursor compares equal to `enumerator(N)` visits exactly
`N` cursors, whose dereferenced values are the casts of `0, 1, ..., N-1` in
that order, the integers `0, 1, ..., N-1` themselves when the action type is
an integer type; `enumerator(N)` is not visited; and `enumerator(0) + i`
dereferences to `i` for every `0 ≤ i < N`. -/
theorem enumerator_pair_enumerates (INT_MIN INT_MAX : Int) (cast : Int → T) (N : Nat)
    (hmin : INT_MIN ≤ 0) (hN : (N : Int) ≤ INT_MAX) :
    (∀ fuel : Nat, N ≤ fuel →
      enumerate INT_MIN INT_MAX cast fuel (enumerator.mk 0) (enumerator.mk (N : Int)) =
        some ((List.range N).map (fun i : Nat => cast (i : Int)))) ∧
    ((List.range N).map (fun i : Nat => cast (i : Int))).length = N ∧
    (∀ fuel : Nat, N ≤ fuel →
      enumerate INT_MIN INT_MAX (fun i : Int => i) fuel (enumerator.mk 0)
          (enumerator.mk (N : Int)) =
        some ((List.range N).map (fun i : Nat => (i : Int)))) ∧
    (∀ i : Nat, i < N →
      (add INT_MIN INT_MAX (enumerator.mk 0 : enumerator T) (i : Int)).map (deref cast) =
        some (cast (i : Int))) := by
  have key : ∀ (T0 : Type) (cast0 : Int → T0) (fuel : Nat), N ≤ fuel →
      enumerate INT_MIN INT_MAX cast0 fuel (enumerator.mk 0) (enumerator.mk (N : Int)) =
        some ((List.range N).map (fun i : Nat => cast0 (i : Int))) := by
    intro T0 cast0 fuel hfuel
    have h := enumerate_from INT_MIN INT_MAX cast0 N 0 fuel hfuel (by simpa using hmin)
      (by simpa using hN)
    simpa [List.range_eq_range'] using h
  refine ⟨key T cast, by simp, key Int (fun i => i), ?_⟩
  intro i hi
  have hle : (i : Int) ≤ INT_MAX := by omega
  simp [add, deref, int_result_of_mem INT_MIN INT_MAX (i : Int) (by omega) hle]

theorem enumerator_pair_enumerates_witness :
    ((-2147483648 : Int) ≤ 0) ∧ (((4 : Nat) : Int) ≤ 2147483647) ∧
    ((∀ fuel : Nat, 4 ≤ fuel →
      enumerate (-2147483648) 2147483647 (fun i : Int => i.toNat) fuel (enumerator.mk 0)
          (enumerator.mk ((4 : Nat) : Int)) =
        some ((List.range 4).map (fun i : Nat => (i : Int).toNat))) ∧
    ((List.range 4).map (fun i : Nat => (i : Int).toNat)).length = 4 ∧
    (∀ fuel : Nat, 4 ≤ fuel →
      enumerate (-2147483648) 2147483647 (fun i : Int => i) fuel (enumerator.mk 0)
          (enumerator.mk ((4 : Nat) : Int)) =
        some ((List.range 4).map (fun i : Nat => (i : Int)))) ∧
    (∀ i : Nat, i < 4 →
      (add (-2147483648) 2147483647 (enumerator.mk 0 : enumerator Nat) (i : Int)).map
          (deref (fun i : Int => i.toNat)) =
        some ((i : Int).toNat))) :=
  ⟨by decide, by decide,
    enumerator_pair_enumerates (-2147483648) 2147483647 (fun i : Int => i.toNat) 4
      (by decide) (by decide)⟩

/-- C17, as amended: dereferencing `enumerator<T>(k)` yields `k` cast to `T`
for every `int` `k`, exactly `k` when `T` is an integer type; and for two
cursors `a = enumerator(i)`, `b = enumerator(j)` the distance `b - a` is the
integer difference `j - i` exactly when that difference lies in
`[INT_MIN, INT_MAX]`, which it does whenever `i` and `j` are both in
`[0, INT_MAX]`. -/
theorem enumerator_deref_distance (INT_MIN INT_MAX : Int) (cast : Int → T)
    (hmin : INT_MIN ≤ -INT_MAX) :
    (∀ k : Int, deref cast (enumerator.mk k) = cast k) ∧
    (∀ k : Int, deref (fun i : Int => i) (enumerator.mk k) = k) ∧
    (∀ i j : Int,
      (distance INT_MIN INT_MAX (enumerator.mk j : enumerator T) (enumerator.mk i) =
          some (j - i) ↔ INT_MIN ≤ j - i ∧ j - i ≤ INT_MAX)) ∧
    (∀ i j : Int, 0 ≤ i → i ≤ INT_MAX → 0 ≤ j → j ≤ INT_MAX →
      distance INT_MIN INT_MAX (enumerator.mk j : enumerator T) (enumerator.mk i) =
        some (j - i)) := by
  refine ⟨fun _ => rfl, fun _ => rfl, ?_, ?_⟩
  · intro i j
    simp [distance, int_result_eq_some_iff]
  · intro i j hi0 hi1 hj0 hj1
    exact int_result_of_mem INT_MIN INT_MAX (j - i) (by omega) (by omega)

theorem enumerator_deref_distance_witness :
    ((-2147483648 : Int) ≤ -2147483647) ∧
    ((∀ k : Int, deref (fun i : Int => i.toNat) (enumerator.mk k) = k.toNat) ∧
    (∀ k : Int, deref (fun i : Int => i) (enumerator.mk k) = k) ∧
    (∀ i j : Int,
      (distance (-2147483648) 2147483647 (enumerator.mk j : enumerator Nat)
          (enumerator.mk i) = some (j - i) ↔
        -2147483648 ≤ j - i ∧ j - i ≤ 2147483647)) ∧
    (∀ i j : Int, 0 ≤ i → i ≤ 2147483647 → 0 ≤ j → j ≤ 2147483647 →
      distance (-2147483648) 2147483647 (enumerator.mk j : enumerator Nat)
          (enumerator.mk i) = some (j - i))) :=
  ⟨by decide,
    enumerator_deref_distance (-2147483648) 2147483647 (fun i : Int => i.toNat) (by decide)⟩

/-- C17, counterexample: with the 32-bit `int`, the cursors
`a = enumerator(INT_MIN)` and `b = enumerator(0)` hold two `int` values, but
`b - a` computes `0 - INT_MIN`, which overflows: the distance is not the
integer difference `2147483648`. -/
theorem enumerator_distance_overflow :
    ((-2147483648 : Int) ≤ -2147483648 ∧ (-2147483648 : Int) ≤ 2147483647) ∧
    ((-2147483648 : Int) ≤ 0 ∧ (0 : Int) ≤ 2147483647) ∧
    distance (-2147483648) 2147483647 (enumerator.mk 0 : enumerator Int)
        (enumerator.mk (-2147483648)) = none ∧
    distance (-2147483648) 2147483647 (enumerator.mk 0 : enumerator Int)
        (enumerator.mk (-2147483648)) ≠ some (0 - (-2147483648)) := by
  decide

end enumerator

end rl

namespace rl

namespace random

section Weights

variable {E : Type} {K : Type} [LinearOrderedField K]

/-! ## Softmax sampling -/

theorem C_last (w : E → K) (S : List E) : C w S (S.length - 1) = (S.map w).sum := by
  cases S with
  | nil => simp [C]
  | cons a rest => simp [C]

end Weights

end random

end rl

namespace rl

namespace random

section Temperature

variable {E : Type}

/-! ## Softmax sampling: the two temperature limits -/

theorem share_softmax (f : E → ℝ) (S : List E) (e : E) (T : ℝ) :
    share (fun a => Real.exp (f a / T)) S e =
      Real.exp (f e / T) / (S.map (fun a => Real.exp (f a / T))).sum := by
  unfold share
  rw [C_last]

theorem share_softmax_shifted (f : E → ℝ) (S : List E) (e : E) (T : ℝ) :
    share (fun a => Real.exp (f a / T)) S e =
      ((S.map (fun a => Real.exp ((f a - f e) / T))).sum)⁻¹ := by
  have hw : (fun a => Real.exp (f a / T)) =
      (fun a => Real.exp (f e / T) * Real.exp ((f a - f e) / T)) := by
    funext a
    rw [← Real.exp_add]
    congr 1
    ring
  have hsum : (S.map (fun a => Real.exp (f a / T))).sum =
      Real.exp (f e / T) * (S.map (fun a => Real.exp ((f a - f e) / T))).sum := by
    rw [hw, List.sum_map_mul_left]
  rw [share_softmax, hsum, div_eq_mul_inv, mul_inv, ← mul_assoc,
    mul_inv_cancel₀ (Real.exp_pos _).ne', one_mul]

theorem sum_map_indicator (p : E → Prop) [DecidablePred p] (S : List E) :
    (S.map (fun a => if p a then (1 : ℝ) else 0)).sum = ((S.countP (fun a => decide (p a)) : Nat) : ℝ) := by
  induction S with
  | nil => simp
  | cons b rest ih =>
    by_cases h : p b
    · simp [List.countP_cons, h, ih, add_comm]
    · simp [List.countP_cons, h, ih]

theorem tendsto_exp_div_zero_right (x : ℝ) (hx : x ≤ 0) :
    Filter.Tendsto (fun T : ℝ => Real.exp (x / T)) (nhdsWithin 0 (Set.Ioi 0))
      (nhds (if x = 0 then 1 else 0)) := by
  by_cases h : x = 0
  · simp [h]
  · have hneg : x < 0 := lt_of_le_of_ne hx h
    have h1 : Filter.Tendsto (fun T : ℝ => x * T⁻¹) (nhdsWithin 0 (Set.Ioi 0)) Filter.atBot :=
      Filter.Tendsto.const_mul_atTop_of_neg hneg tendsto_inv_zero_atTop
    have h2 := Real.tendsto_exp_atBot.comp h1
    simpa [Function.comp_def, div_eq_mul_inv, h] using h2

end Temperature

end random

end rl

namespace rl

namespace random

section FinalBucket

variable {E : Type} {K : Type} [LinearOrderedField K]

/-! ## The scan of `density` at and beyond the total weight -/

theorem scan_eq_none_iff (val : K) (cs : List K) (k : Nat) :
    scan val cs k = none ↔ ∀ x ∈ cs, x ≤ val := by
  induction cs generalizing k with
  | nil => simp [scan]
  | cons x cs ih =>
    by_cases h : val ≥ x
    · have hx : x ≤ val := h
      simp [scan, hx, ih]
    · have hx : ¬ x ≤ val := h
      simp [scan, hx]

theorem densityIndex_eq_none_iff (f : E → K) (S : List E) (hS : S ≠ []) (val : K) :
    densityIndex f S val = none ↔ ∀ i : Nat, i < S.length → C f S i ≤ val := by
  simp only [densityIndex, cum_eq f S hS, scan_eq_none_iff, List.mem_map, List.mem_range]
  constructor
  · intro h i hi
    exact h (C f S i) ⟨i, hi, rfl⟩
  · rintro h x ⟨i, hi, rfl⟩
    exact h i hi

theorem densityAt_eq_none_of_index (f : E → K) (S : List E) (val : K)
    (h : densityIndex f S val = none) : densityAt f S val = none := by
  simp [densityAt, h]

theorem C_le_total (f : E → K) (S : List E) (hf : ∀ e ∈ S, 0 ≤ f e) (i : Nat)
    (hi : i < S.length) : C f S i ≤ C f S (S.length - 1) :=
  C_mono f S hf (by omega)

theorem total_eq_zero_of_zero (f : E → K) (S : List E) (hz : ∀ e ∈ S, f e = 0) :
    C f S (S.length - 1) = 0 := by
  rw [C_last]
  apply List.sum_eq_zero
  intro x hx
  obtain ⟨e, he, rfl⟩ := List.mem_map.1 hx
  exact hz e he

/-- C21: the scan of `density` has no bound check at the final bucket. On a
non-empty sequence with non-negative weights, whenever the draw value `u` is at
least the total weight `C_{n-1}`, no index `i < n` passes the stopping test
`u < C_i`, so the scan goes through all `n` entries of `cum`, selects none of
the `n` elements and runs past the last entry; with non-negative weights this
happens exactly for `u ≥ C_{n-1}`, in particular at the boundary
`u = C_{n-1}`, and on every call with all-zero weights, where the draw is
`uniform(0,0) = 0 = C_{n-1}` whatever `uniform()` returns. -/
theorem density_scan_past_end (f : E → K) (S : List E) (hS : S ≠ [])
    (hf : ∀ e ∈ S, 0 ≤ f e) :
    (∀ u : K, C f S (S.length - 1) ≤ u →
      (∀ i : Nat, i < S.length → ¬ u < C f S i) ∧
      (∀ cv : List K, cum f S = some cv → cv.length = S.length ∧ scan u cv 0 = none) ∧
      densityIndex f S u = none ∧ densityAt f S u = none) ∧
    (∀ u : K, densityIndex f S u = none ↔ C f S (S.length - 1) ≤ u) ∧
    densityAt f S (C f S (S.length - 1)) = none ∧
    ((∀ e ∈ S, f e = 0) → ∀ u0 : K,
      C f S (S.length - 1) = 0 ∧ uniform_min_max 0 (C f S (S.length - 1)) u0 = 0 ∧
      density f S u0 = none) := by
  have hn : S.length - 1 < S.length :=
    Nat.sub_lt (List.length_pos.2 hS) Nat.one_pos
  have hiff : ∀ u : K, densityIndex f S u = none ↔ C f S (S.length - 1) ≤ u := by
    intro u
    rw [densityIndex_eq_none_iff f S hS u]
    exact ⟨fun h => h _ hn, fun h i hi => le_trans (C_le_total f S hf i hi) h⟩
  have hnone : ∀ u : K, C f S (S.length - 1) ≤ u → densityAt f S u = none :=
    fun u hu => densityAt_eq_none_of_index f S u ((hiff u).2 hu)
  refine ⟨?_, hiff, hnone _ (le_refl _), ?_⟩
  · intro u hu
    have hidx : densityIndex f S u = none := (hiff u).2 hu
    refine ⟨?_, ?_, hidx, hnone u hu⟩
    · intro i hi
      exact not_lt.2 ((densityIndex_eq_none_iff f S hS u).1 hidx i hi)
    · intro cv hcv
      have hscan : scan u cv 0 = none := by
        simpa [densityIndex, hcv] using hidx
      rw [cum_eq f S hS] at hcv
      have hcv2 := Option.some.inj hcv
      exact ⟨by simp [← hcv2], hscan⟩
  · intro hz u0
    have htot : C f S (S.length - 1) = 0 := total_eq_zero_of_zero f S hz
    have hval : uniform_min_max 0 (C f S (S.length - 1)) u0 = 0 := by
      simp [uniform_min_max, htot]
    refine ⟨htot, hval, ?_⟩
    rw [density_eq_densityAt f S hS u0, hval]
    exact hnone 0 (le_of_eq htot)

theorem density_scan_past_end_witness :
    ([0, 0, 0] : List Nat) ≠ [] ∧
    (∀ e ∈ ([0, 0, 0] : List Nat), (0 : ℚ) ≤ (e : ℚ)) ∧
    ((∀ u : ℚ, C (fun a : Nat => (a : ℚ)) [0, 0, 0] ([0, 0, 0].length - 1) ≤ u →
      (∀ i : Nat, i < [0, 0, 0].length → ¬ u < C (fun a : Nat => (a : ℚ)) [0, 0, 0] i) ∧
      (∀ cv : List ℚ, cum (fun a : Nat => (a : ℚ)) [0, 0, 0] = some cv →
        cv.length = [0, 0, 0].length ∧ scan u cv 0 = none) ∧
      densityIndex (fun a : Nat => (a : ℚ)) [0, 0, 0] u = none ∧
      densityAt (fun a : Nat => (a : ℚ)) [0, 0, 0] u = none) ∧
    (∀ u : ℚ, densityIndex (fun a : Nat => (a : ℚ)) [0, 0, 0] u = none ↔
      C (fun a : Nat => (a : ℚ)) [0, 0, 0] ([0, 0, 0].length - 1) ≤ u) ∧
    densityAt (fun a : Nat => (a : ℚ)) [0, 0, 0]
      (C (fun a : Nat => (a : ℚ)) [0, 0, 0] ([0, 0, 0].length - 1)) = none ∧
    ((∀ e ∈ ([0, 0, 0] : List Nat), (e : ℚ) = 0) → ∀ u0 : ℚ,
      C (fun a : Nat => (a : ℚ)) [0, 0, 0] ([0, 0, 0].length - 1) = 0 ∧
      uniform_min_max 0 (C (fun a : Nat => (a : ℚ)) [0, 0, 0] ([0, 0, 0].length - 1)) u0 = 0 ∧
      density (fun a : Nat => (a : ℚ)) [0, 0, 0] u0 = none)) :=
  ⟨by decide, by intro e _; positivity,
    density_scan_past_end (fun a : Nat => (a : ℚ)) [0, 0, 0] (by decide)
      (by intro e _; positivity)⟩

end FinalBucket

end random

end rl

namespace rl

namespace random

section ComputedWeights

variable {E : Type} {K : Type} [LinearOrderedField K]

/-! ## Softmax sampling with the weights that `exp` computes -/

theorem density_eq_none_of_zero (w : E → K) (S : List E) (hz : ∀ e ∈ S, w e = 0) (u0 : K) :
    density w S u0 = none := by
  cases S with
  | nil => rfl
  | cons a rest =>
    have hS : a :: rest ≠ [] := List.cons_ne_nil a rest
    have hf : ∀ e ∈ a :: rest, 0 ≤ w e := fun e he => le_of_eq (hz e he).symm
    have htot : C w (a :: rest) ((a :: rest).length - 1) = 0 :=
      total_eq_zero_of_zero w _ hz
    have hval : uniform_min_max 0 (C w (a :: rest) ((a :: rest).length - 1)) u0 = 0 := by
      rw [htot]
      simp [uniform_min_max]
    rw [density_eq_densityAt w _ hS u0, hval]
    apply densityAt_eq_none_of_index
    rw [densityIndex_eq_none_iff w _ hS]
    intro i hi
    exact le_trans (C_le_total w _ hf i hi) (le_of_eq htot)

theorem density_one_hot_position (w : E → K) (S : List E) (k : Nat) (e : E) (u0 : K)
    (hk : S[k]? = some e)
    (hw : ∀ (j : Nat) (x : E), S[j]? = some x → w x = if j = k then 1 else 0)
    (h0 : 0 ≤ u0) (h1 : u0 < 1) : density w S u0 = some e := by
  have hkn : k < S.length := (List.getElem?_eq_some.1 hk).1
  have hS : S ≠ [] := by
    intro h
    simp [h] at hkn
  have hn : S.length - 1 < S.length := by omega
  have htot : C w S (S.length - 1) = 1 := by
    rw [C_one_hot w S k hw _ hn, if_pos (by omega)]
  have hval : uniform_min_max 0 (C w S (S.length - 1)) u0 = u0 := by
    simp [uniform_min_max, htot]
  have hidx : densityIndex w S u0 = some k := by
    rw [densityIndex_eq_some_iff w S hS u0 k]
    refine ⟨hkn, ?_, ?_⟩
    · rw [C_one_hot w S k hw k hkn, if_pos (le_refl k)]
      exact h1
    · intro j hj
      rw [C_one_hot w S k hw j (by omega), if_neg (by omega)]
      exact h0
  rw [density_eq_densityAt w S hS u0, hval, densityAt_eq_of_index w S u0 k hidx]
  exact hk

end ComputedWeights

section SoftmaxClaims

variable {E : Type}

theorem argmax_value_position (f : E → ℝ) (S : List E) (hS : S ≠ []) :
    ∃ (i : Nat) (a : E), S[i]? = some a ∧ argmax Deref.value f S = some (some a, f a) ∧
      (∀ (j : Nat) (x : E), j < i → S[j]? = some x → f x < f a) ∧
      (∀ x ∈ S, f x ≤ f a) := by
  cases S with
  | nil => exact absurd rfl hS
  | cons b rest =>
    obtain ⟨i, a, hi, hr, hlt, hle⟩ := argmaxLoop_spec f rest b
    exact ⟨i, a, hi, by simp [argmax, first_of_local, hr], hlt, hle⟩

theorem tendsto_share_low_temperature (f : E → ℝ) (S : List E) (a : E) (ha : a ∈ S)
    (hmax : ∀ x ∈ S, f x ≤ f a) :
    0 < S.countP (fun e => decide (f e = f a)) ∧
    Filter.Tendsto (fun T : ℝ => share (fun e => Real.exp (f e / T)) S a)
      (nhdsWithin 0 (Set.Ioi 0))
      (nhds (1 / ((S.countP (fun e => decide (f e = f a)) : Nat) : ℝ))) := by
  have hpos : 0 < S.countP (fun e => decide (f e = f a)) :=
    List.countP_pos_iff.2 ⟨a, ha, by simp⟩
  refine ⟨hpos, ?_⟩
  have hfun : (fun T : ℝ => share (fun e => Real.exp (f e / T)) S a) =
      (fun T : ℝ => ((S.map (fun e => Real.exp ((f e - f a) / T))).sum)⁻¹) := by
    funext T
    exact share_softmax_shifted f S a T
  have hsum : Filter.Tendsto (fun T : ℝ => (S.map (fun e => Real.exp ((f e - f a) / T))).sum)
      (nhdsWithin 0 (Set.Ioi 0))
      (nhds (S.map (fun e => if f e - f a = 0 then (1 : ℝ) else 0)).sum) :=
    tendsto_list_sum S
      (fun e he => tendsto_exp_div_zero_right (f e - f a) (sub_nonpos.2 (hmax e he)))
  have hcount : (S.map (fun e => if f e - f a = 0 then (1 : ℝ) else 0)).sum =
      ((S.countP (fun e => decide (f e = f a)) : Nat) : ℝ) := by
    rw [sum_map_indicator (fun e => f e - f a = 0) S]
    simp only [sub_eq_zero]
  rw [hcount] at hsum
  have hne : ((S.countP (fun e => decide (f e = f a)) : Nat) : ℝ) ≠ 0 := by
    positivity
  rw [hfun, one_div]
  exact hsum.inv₀ hne

theorem softmax_none_of_underflow (exp : ℝ → ℝ) (hunder : ∀ x : ℝ, x < -746 → exp x = 0)
    (f : E → ℝ) (T : ℝ) (S : List E) (hlow : ∀ e ∈ S, f e / T < -746) (u0 : ℝ) :
    softmax exp f T S u0 = none :=
  density_eq_none_of_zero _ S (fun e he => hunder _ (hlow e he)) u0

theorem softmax_argmax_of_underflow (exp : ℝ → ℝ) (hone : exp 0 = 1)
    (hunder : ∀ x : ℝ, x < -746 → exp x = 0) (f : E → ℝ) (T : ℝ) (S : List E) (i : Nat)
    (a : E) (hi : S[i]? = some a) (hfa : f a = 0)
    (hlow : ∀ (j : Nat) (x : E), j ≠ i → S[j]? = some x → f x / T < -746)
    (u0 : ℝ) (h0 : 0 ≤ u0) (h1 : u0 < 1) : softmax exp f T S u0 = some a := by
  apply density_one_hot_position _ S i a u0 hi _ h0 h1
  intro j x hx
  by_cases hj : j = i
  · subst hj
    have hxa : x = a := Option.some.inj (hx.symm.trans hi)
    simp [hxa, hfa, hone]
  · simp only [hj, if_false]
    exact hunder _ (hlow j x hj hx)

/-- C14, as amended: as the temperature tends to `0` from above, in exact
arithmetic the share `exp(f(a)/T) / sum_e exp(f(e)/T)` of the position at which
`argmax(f,S)` finds its maximum (the first maximal position, which holds `a`)
tends to `1/m`, where `m ≥ 1` is the number of positions of the sequence whose
value is the maximum `f(a)`; it tends to `1` exactly when the maximum is
attained at a single position. The computed `softmax` does not follow this
limit in general: with an `exp` that returns `0` below `-746`, once every
`f(e)/T` is below that threshold all weights are `0` and the scan selects no
element, whatever the draw; when the maximal value is `0`, attained at one
position, and every other `f(e)/T` is below the threshold, `softmax` returns the
element `a` for every draw in `[0,1)`. -/
theorem softmax_low_temperature (f : E → ℝ) (S : List E) (hS : S ≠ []) :
    ∃ (i : Nat) (a : E), S[i]? = some a ∧
      argmax Deref.value f S = some (some a, f a) ∧
      (∀ (j : Nat) (x : E), j < i → S[j]? = some x → f x < f a) ∧
      (∀ x ∈ S, f x ≤ f a) ∧
      1 ≤ S.countP (fun e => decide (f e = f a)) ∧
      Filter.Tendsto (fun T : ℝ => share (fun e => Real.exp (f e / T)) S a)
        (nhdsWithin 0 (Set.Ioi 0))
        (nhds (1 / ((S.countP (fun e => decide (f e = f a)) : Nat) : ℝ))) ∧
      (Filter.Tendsto (fun T : ℝ => share (fun e => Real.exp (f e / T)) S a)
          (nhdsWithin 0 (Set.Ioi 0)) (nhds 1) ↔
        S.countP (fun e => decide (f e = f a)) = 1) ∧
      (∀ exp : ℝ → ℝ, (∀ x : ℝ, x < -746 → exp x = 0) →
        ∀ T u0 : ℝ, 0 < T → (∀ e ∈ S, f e / T < -746) → softmax exp f T S u0 = none) ∧
      (∀ exp : ℝ → ℝ, exp 0 = 1 → (∀ x : ℝ, x < -746 → exp x = 0) → f a = 0 →
        ∀ T u0 : ℝ, 0 < T → 0 ≤ u0 → u0 < 1 →
          (∀ (j : Nat) (x : E), j ≠ i → S[j]? = some x → f x / T < -746) →
          softmax exp f T S u0 = some a) := by
  obtain ⟨i, a, hi, harg, hlt, hmax⟩ := argmax_value_position f S hS
  have ha : a ∈ S := mem_of_getElem?_eq_some hi
  obtain ⟨hpos, hlim⟩ := tendsto_share_low_temperature f S a ha hmax
  refine ⟨i, a, hi, harg, hlt, hmax, hpos, hlim, ?_, ?_, ?_⟩
  · constructor
    · intro h1
      have heq := tendsto_nhds_unique hlim h1
      have hne : ((S.countP (fun e => decide (f e = f a)) : Nat) : ℝ) ≠ 0 := by
        positivity
      have hm : ((S.countP (fun e => decide (f e = f a)) : Nat) : ℝ) = 1 := by
        field_simp at heq
        linarith
      exact_mod_cast hm
    · intro hm
      rw [hm] at hlim
      simpa using hlim
  · intro exp hunder T u0 _ hlow
    exact softmax_none_of_underflow exp hunder f T S hlow u0
  · intro exp hone hunder hfa T u0 _ h0 h1 hlow
    exact softmax_argmax_of_underflow exp hone hunder f T S i a hi hfa hlow u0 h0 h1

theorem softmax_low_temperature_witness :
    ([5, 9, 7] : List Nat) ≠ [] ∧
    ∃ (i : Nat) (a : Nat), [5, 9, 7][i]? = some a ∧
      argmax Deref.value (fun e : Nat => (e : ℝ) - 9) [5, 9, 7] = some (some a, (a : ℝ) - 9) ∧
      (∀ (j : Nat) (x : Nat), j < i → [5, 9, 7][j]? = some x → (x : ℝ) - 9 < (a : ℝ) - 9) ∧
      (∀ x ∈ ([5, 9, 7] : List Nat), (x : ℝ) - 9 ≤ (a : ℝ) - 9) ∧
      1 ≤ ([5, 9, 7] : List Nat).countP (fun e => decide ((e : ℝ) - 9 = (a : ℝ) - 9)) ∧
      Filter.Tendsto
        (fun T : ℝ => share (fun e : Nat => Real.exp (((e : ℝ) - 9) / T)) [5, 9, 7] a)
        (nhdsWithin 0 (Set.Ioi 0))
        (nhds (1 / ((([5, 9, 7] : List Nat).countP
          (fun e => decide ((e : ℝ) - 9 = (a : ℝ) - 9)) : Nat) : ℝ))) ∧
      (Filter.Tendsto
          (fun T : ℝ => share (fun e : Nat => Real.exp (((e : ℝ) - 9) / T)) [5, 9, 7] a)
          (nhdsWithin 0 (Set.Ioi 0)) (nhds 1) ↔
        ([5, 9, 7] : List Nat).countP (fun e => decide ((e : ℝ) - 9 = (a : ℝ) - 9)) = 1) ∧
      (∀ exp : ℝ → ℝ, (∀ x : ℝ, x < -746 → exp x = 0) →
        ∀ T u0 : ℝ, 0 < T → (∀ e ∈ ([5, 9, 7] : List Nat), ((e : ℝ) - 9) / T < -746) →
          softmax exp (fun e : Nat => (e : ℝ) - 9) T [5, 9, 7] u0 = none) ∧
      (∀ exp : ℝ → ℝ, exp 0 = 1 → (∀ x : ℝ, x < -746 → exp x = 0) → (a : ℝ) - 9 = 0 →
        ∀ T u0 : ℝ, 0 < T → 0 ≤ u0 → u0 < 1 →
          (∀ (j : Nat) (x : Nat), j ≠ i → [5, 9, 7][j]? = some x →
            ((x : ℝ) - 9) / T < -746) →
          softmax exp (fun e : Nat => (e : ℝ) - 9) T [5, 9, 7] u0 = some a) :=
  ⟨by decide, softmax_low_temperature (fun e : Nat => (e : ℝ) - 9) [5, 9, 7] (by decide)⟩

/-- C14, counterexample. In exact arithmetic: over the sequence `0, 1` with the
constant evaluator `f = 0`, `argmax` finds its maximum at the element `0`, whose
share `exp(0/T) / (exp(0/T) + exp(0/T))` is `1/2` at every temperature and so
does not tend to `1` as the temperature tends to `0` from above. With the
computed weights: for `f(e) = e - 3` over the sequence `0, 1, 2`, whose maximum
`-1` is attained at the single element `2`, and an `exp` that returns `0` below
`-746` as the function of `<cmath>` does on `double`, at temperature `1/1000`
every weight is `0` and `softmax` selects no element. -/
theorem softmax_low_temperature_fails :
    (([0, 1] : List Nat) ≠ [] ∧
      argmax Deref.value (fun _ : Nat => (0 : ℝ)) [0, 1] = some (some 0, 0) ∧
      (∀ T : ℝ, share (fun e : Nat => Real.exp ((fun _ : Nat => (0 : ℝ)) e / T)) [0, 1] 0 =
        1 / 2) ∧
      ¬ Filter.Tendsto
        (fun T : ℝ => share (fun e : Nat => Real.exp ((fun _ : Nat => (0 : ℝ)) e / T)) [0, 1] 0)
        (nhdsWithin 0 (Set.Ioi 0)) (nhds 1)) ∧
    (argmax Deref.value (fun e : Nat => (e : ℝ) - 3) [0, 1, 2] = some (some 2, (2 : ℝ) - 3) ∧
      softmax (fun x : ℝ => if x < -746 then 0 else Real.exp x)
        (fun e : Nat => (e : ℝ) - 3) (1 / 1000) [0, 1, 2] (1 / 2) = none) := by
  have hshare : ∀ T : ℝ,
      share (fun e : Nat => Real.exp ((fun _ : Nat => (0 : ℝ)) e / T)) [0, 1] 0 = 1 / 2 := by
    intro T
    simp [share, C]
    norm_num
  refine ⟨⟨by decide, by simp [argmax, argmaxLoop, first_of_local], hshare, ?_⟩, ?_, ?_⟩
  · intro h
    have hconst : Filter.Tendsto
        (fun T : ℝ =>
          share (fun e : Nat => Real.exp ((fun _ : Nat => (0 : ℝ)) e / T)) [0, 1] 0)
        (nhdsWithin 0 (Set.Ioi 0)) (nhds (1 / 2)) := by
      simp only [hshare]
      exact tendsto_const_nhds
    have := tendsto_nhds_unique hconst h
    norm_num at this
  · simp [argmax, argmaxLoop, first_of_local]
  · apply softmax_none_of_underflow _ (fun x hx => by simp [hx])
    intro e he
    have he2 : (e : ℝ) ≤ 2 := by
      simp only [List.mem_cons, List.mem_singleton, List.not_mem_nil, or_false] at he
      rcases he with rfl | rfl | rfl <;> norm_num
    rw [div_lt_iff₀ (by norm_num)]
    linarith

end SoftmaxClaims

end random

end rl
